import Mathlib

/-!
Verification of the SyncPlan cluster-planarity subsystem of the OGDF
graph-drawing library, as a shallow embedding of the sources in
`src/src/ogdf/cluster/sync_plan/ClusterPlanarity.cpp` and the headers for
`NodeSPQRRotation` and `FilteringBFS`.

Machine pointers become `Nat` identifiers, `nullptr` becomes `none`,
per-node adjacency lists become Lean lists, and the imperative loops of the
source become folds.  Functions whose bodies are not among the provided
sources (the post-order cluster iterator, `splitEdge`, `join`,
`getIncidentEdgeBijection`, the PC-tree construction walk) are modelled from
the specification and carry a doc comment saying so.
-/

/-- Pointwise update of a function on `Nat` keys, the shallow counterpart of
an imperative in-place write to an array slot or object field. -/
def upd {α : Type} (f : Nat → α) (k : Nat) (v : α) : Nat → α :=
  fun m => if m = k then v else f m

theorem upd_same {α : Type} (f : Nat → α) (k : Nat) (v : α) : upd f k v k = v := by
  simp [upd]

theorem upd_other {α : Type} (f : Nat → α) (k : Nat) (v : α) (m : Nat) (h : m ≠ k) :
    upd f k v m = f m := by
  simp [upd, h]

namespace SyncPlanCF

/-- Results of the two fallible operations of one constructed SyncPlan
instance.  `ClusterPlanarity.cpp` only ever consumes the two booleans, so
the module-level control flow is fully determined by this record. -/
structure SyncPlanRun where
  makeReducedResult : Bool
  solveReducedResult : Bool

/-- Which SyncPlan operations a module entry point actually invoked.
Used to state the call protocol (short-circuiting, embed only on success). -/
structure SPCalls where
  calledMakeReduced : Bool
  calledSolveReduced : Bool
  calledEmbed : Bool
deriving DecidableEq

/-- Embeds `SyncPlanClusterPlanarityModule::isClusterPlanarDestructive`:
`return SP.makeReduced() && SP.solveReduced();`.  The C++ `&&` is
short-circuiting, so `solveReduced` runs only when `makeReduced` returned
true; non-cluster-planarity is a plain `false` return (the function is
total, no exception path exists). -/
def isClusterPlanarDestructive (r : SyncPlanRun) : Bool × SPCalls :=
  if r.makeReducedResult then
    (r.solveReducedResult, ⟨true, true, false⟩)
  else
    (false, ⟨true, false, false⟩)

/-- Embeds `SyncPlanClusterPlanarityModule::clusterPlanarEmbedClusterPlanarGraph`:
`if (SP.makeReduced() && SP.solveReduced()) { SP.embed(); return true; }
else { return false; }`. -/
def clusterPlanarEmbedClusterPlanarGraph (r : SyncPlanRun) : Bool × SPCalls :=
  if r.makeReducedResult then
    if r.solveReducedResult then
      (true, ⟨true, true, true⟩)
    else
      (false, ⟨true, true, false⟩)
  else
    (false, ⟨true, false, false⟩)

/-- An instance handed to `clusterPlanarEmbed`: the caller's graph `G` and
cluster graph `CG`, abstracted over their representation types. -/
structure ClusterPlanarInstance (α β : Type) where
  G : α
  CG : β

/-- Embeds `SyncPlanClusterPlanarityModule::clusterPlanarEmbed`: the whole
construction/reduction/solving pipeline operates on the internal copies
`Gcopy`/`CGcopy` (built first, together with the `copyC`/`copyN`/`copyE`
mapping arrays); on failure the function returns `false` before any write to
the caller's `G`/`CG`; only on the success path does it write back
(`adjAvailable`, `copyEmbedding`, cluster `adjEntries`, augmentation
remapping), modelled here by the caller-visible `writeBack` step applied to
the solved copy state. -/
def clusterPlanarEmbed {α β : Type} (inst : ClusterPlanarInstance α β) (r : SyncPlanRun)
    (spMutate : α × β → α × β)
    (writeBack : ClusterPlanarInstance α β → α × β → ClusterPlanarInstance α β) :
    Bool × ClusterPlanarInstance α β :=
  let copy : α × β := (inst.G, inst.CG)
  let solved := spMutate copy
  if r.makeReducedResult then
    if r.solveReducedResult then
      (true, writeBack inst solved)
    else
      (false, inst)
  else
    (false, inst)

end SyncPlanCF

/-- Claim C4: non-cluster-planarity is reported purely via boolean returns
(the embedded functions are total, with no exceptional exit);
`isClusterPlanarDestructive` returns `makeReduced && solveReduced` with
`solveReduced` invoked exactly when `makeReduced` returned true and `embed`
never invoked; `clusterPlanarEmbedClusterPlanarGraph` calls `embed` if and
only if both returned true, and returns exactly that conjunction. -/
theorem claim_C4_boolean_protocol (r : SyncPlanCF.SyncPlanRun) :
    (SyncPlanCF.isClusterPlanarDestructive r).1
        = (r.makeReducedResult && r.solveReducedResult)
    ∧ (SyncPlanCF.isClusterPlanarDestructive r).2.calledSolveReduced = r.makeReducedResult
    ∧ (SyncPlanCF.isClusterPlanarDestructive r).2.calledEmbed = false
    ∧ (SyncPlanCF.clusterPlanarEmbedClusterPlanarGraph r).1
        = (r.makeReducedResult && r.solveReducedResult)
    ∧ (SyncPlanCF.clusterPlanarEmbedClusterPlanarGraph r).2.calledEmbed
        = (r.makeReducedResult && r.solveReducedResult)
    ∧ (SyncPlanCF.clusterPlanarEmbedClusterPlanarGraph r).2.calledSolveReduced
        = r.makeReducedResult := by
  obtain ⟨mr, sr⟩ := r
  cases mr <;> cases sr <;>
    simp [SyncPlanCF.isClusterPlanarDestructive,
      SyncPlanCF.clusterPlanarEmbedClusterPlanarGraph]

/-- Claim C9: `clusterPlanarEmbed` is atomic on failure: whenever it returns
`false`, the caller's graph and cluster graph are returned exactly as they
were handed in — the SyncPlan run mutates only the internal copies, and the
write-back step is reached only on the success path. -/
theorem claim_C9_embed_atomic_on_failure {α β : Type}
    (inst : SyncPlanCF.ClusterPlanarInstance α β) (r : SyncPlanCF.SyncPlanRun)
    (spMutate : α × β → α × β)
    (writeBack : SyncPlanCF.ClusterPlanarInstance α β → α × β →
      SyncPlanCF.ClusterPlanarInstance α β)
    (h : (SyncPlanCF.clusterPlanarEmbed inst r spMutate writeBack).1 = false) :
    (SyncPlanCF.clusterPlanarEmbed inst r spMutate writeBack).2 = inst := by
  obtain ⟨mr, sr⟩ := r
  cases mr <;> cases sr <;>
    simp_all [SyncPlanCF.clusterPlanarEmbed]

/-- Witness for C9 at a concrete failing run: with `makeReduced` returning
false the caller's instance comes back unchanged. -/
theorem claim_C9_witness :
    (SyncPlanCF.clusterPlanarEmbed (⟨3, 7⟩ : SyncPlanCF.ClusterPlanarInstance Nat Nat)
        ⟨false, true⟩ id (fun _ p => ⟨p.1, p.2⟩)).2
      = (⟨3, 7⟩ : SyncPlanCF.ClusterPlanarInstance Nat Nat) :=
  claim_C9_embed_atomic_on_failure (⟨3, 7⟩ : SyncPlanCF.ClusterPlanarInstance Nat Nat)
    ⟨false, true⟩ id (fun _ p => ⟨p.1, p.2⟩) rfl

namespace SPQRRot

/-- State of a `NodeSPQRRotation` relevant to handle remapping: the graph
node `m_n` the rotation is built for, the PC-tree structure (the tree nodes
as enumerated by `FilteringPCTreeDFS` from the root, the leaves, and the
parent links), and the per-node graph handles.  `none` models a C++
`nullptr` handle.  PC-tree nodes and graph handles are `Nat` identifiers. -/
structure RotationState where
  m_n : Nat
  treeNodes : List Nat
  leaves : List Nat
  parentOf : Nat → Option Nat
  m_graphNodeForInnerNode : Nat → Option Nat
  m_incidentEdgeForLeaf : Nat → Option Nat
  m_bundleEdgesForLeaf : Nat → List Nat
  knowsPartnerEdges : Bool

/-- Embeds `NodeSPQRRotation::mapGraph`: sets `m_n = nodes(m_n)`, walks the
PC tree by DFS mapping every non-null `m_graphNodeForInnerNode` entry, and
for every leaf maps the non-null incident edge and, when partner edges are
known, every bundle edge.  Tree structure fields are untouched. -/
def mapGraph (st : RotationState) (nodes : Nat → Nat) (edges : Nat → Nat) :
    RotationState :=
  { st with
    m_n := nodes st.m_n
    m_graphNodeForInnerNode := fun p =>
      if p ∈ st.treeNodes then (st.m_graphNodeForInnerNode p).map nodes
      else st.m_graphNodeForInnerNode p
    m_incidentEdgeForLeaf := fun l =>
      if l ∈ st.leaves then (st.m_incidentEdgeForLeaf l).map edges
      else st.m_incidentEdgeForLeaf l
    m_bundleEdgesForLeaf := fun l =>
      if st.knowsPartnerEdges ∧ l ∈ st.leaves then (st.m_bundleEdgesForLeaf l).map edges
      else st.m_bundleEdgesForLeaf l }

/-- A concrete rotation state used by the witness theorems. -/
def rotExample : RotationState where
  m_n := 5
  treeNodes := [0, 1, 2]
  leaves := [1, 2]
  parentOf := fun p => if p = 0 then none else some 0
  m_graphNodeForInnerNode := fun p => if p = 0 then some 7 else none
  m_incidentEdgeForLeaf := fun l => if l = 1 then some 4 else none
  m_bundleEdgesForLeaf := fun l => if l = 2 then [4, 9] else []
  knowsPartnerEdges := true

end SPQRRot

/-- Claim C8: after `mapGraph(G, nodes, edges)` every stored graph handle has
been remapped through the caller-supplied functions — `m_n` becomes
`nodes m_n`, each inner tree node's non-null graph node is mapped through
`nodes` (null handles staying null, which is what `Option.map` states), each
leaf's non-null incident edge is mapped through `edges`, bundle edges are
mapped through `edges` when partner edges are known — while the PC-tree
structure (tree nodes, leaves, parent links) is unchanged. -/
theorem claim_C8_mapGraph_remaps_handles (st : SPQRRot.RotationState)
    (fn fe : Nat → Nat) :
    (SPQRRot.mapGraph st fn fe).m_n = fn st.m_n
    ∧ (∀ p ∈ st.treeNodes,
        (SPQRRot.mapGraph st fn fe).m_graphNodeForInnerNode p
          = (st.m_graphNodeForInnerNode p).map fn)
    ∧ (∀ l ∈ st.leaves,
        (SPQRRot.mapGraph st fn fe).m_incidentEdgeForLeaf l
          = (st.m_incidentEdgeForLeaf l).map fe)
    ∧ (st.knowsPartnerEdges = true → ∀ l ∈ st.leaves,
        (SPQRRot.mapGraph st fn fe).m_bundleEdgesForLeaf l
          = (st.m_bundleEdgesForLeaf l).map fe)
    ∧ (SPQRRot.mapGraph st fn fe).treeNodes = st.treeNodes
    ∧ (SPQRRot.mapGraph st fn fe).leaves = st.leaves
    ∧ (SPQRRot.mapGraph st fn fe).parentOf = st.parentOf
    ∧ (SPQRRot.mapGraph st fn fe).knowsPartnerEdges = st.knowsPartnerEdges := by
  refine ⟨rfl, ?_, ?_, ?_, rfl, rfl, rfl, rfl⟩
  · intro p hp
    simp [SPQRRot.mapGraph, hp]
  · intro l hl
    simp [SPQRRot.mapGraph, hl]
  · intro hk l hl
    simp [SPQRRot.mapGraph, hk, hl]

/-- Witness for C8 on a concrete rotation state: the stored handles are
remapped (inner node 0 holds graph node 7, mapped by successor; leaf 1 holds
edge 4, mapped by doubling; leaf 2's bundle edges are doubled). -/
theorem claim_C8_witness :
    (SPQRRot.mapGraph SPQRRot.rotExample (fun n => n + 1) (fun e => 2 * e)).m_graphNodeForInnerNode 0
      = (SPQRRot.rotExample.m_graphNodeForInnerNode 0).map (fun n => n + 1)
    ∧ (SPQRRot.mapGraph SPQRRot.rotExample (fun n => n + 1) (fun e => 2 * e)).m_incidentEdgeForLeaf 1
      = (SPQRRot.rotExample.m_incidentEdgeForLeaf 1).map (fun e => 2 * e)
    ∧ (SPQRRot.mapGraph SPQRRot.rotExample (fun n => n + 1) (fun e => 2 * e)).m_bundleEdgesForLeaf 2
      = (SPQRRot.rotExample.m_bundleEdgesForLeaf 2).map (fun e => 2 * e) :=
  ⟨(claim_C8_mapGraph_remaps_handles SPQRRot.rotExample (fun n => n + 1) (fun e => 2 * e)).2.1
      0 (by decide),
   (claim_C8_mapGraph_remaps_handles SPQRRot.rotExample (fun n => n + 1) (fun e => 2 * e)).2.2.1
      1 (by decide),
   (claim_C8_mapGraph_remaps_handles SPQRRot.rotExample (fun n => n + 1) (fun e => 2 * e)).2.2.2.1
      rfl 2 (by decide)⟩

namespace BFS

/-- One adjacency entry as seen by `FilteringBFS`: the edge identifier and
the node at the other end (`adj->twinNode()`). -/
structure BfsAdj where
  eid : Nat
  twin : Nat
deriving DecidableEq

/-- The graph a `FilteringBFS` traverses: per-node adjacency entry lists. -/
structure BfsGraph where
  adjEntries : Nat → List BfsAdj

/-- State of a `FilteringBFS`: the pending queue (head = front), the
visited flags, and the two filters `m_visit` / `m_descend`. -/
structure FilteringBFS where
  pending : List Nat
  visited : Nat → Bool
  visit : BfsAdj → Bool
  descend : Nat → Bool

/-- Embeds the `FilteringBFS` constructor: the initial nodes are appended to
the pending queue and no node is visited yet. -/
def mkBFS (init : List Nat) (visit : BfsAdj → Bool) (descend : Nat → Bool) :
    FilteringBFS where
  pending := init
  visited := fun _ => false
  visit := visit
  descend := descend

/-- Embeds `FilteringBFS::next`: pop the front node `n` (asserted
unvisited), mark it visited, and if the descend filter admits `n`, enqueue
every adjacent node that is still unvisited and whose adjacency entry passes
the visit filter; finally drain every already-visited node from the front of
the queue.  The C++ assertion `!m_pending.empty()` is a precondition; on an
empty queue the model leaves the state unchanged. -/
def next (g : BfsGraph) (st : FilteringBFS) : FilteringBFS :=
  match st.pending with
  | [] => st
  | n :: rest =>
    let visited1 : Nat → Bool := fun m => if m = n then true else st.visited m
    let enq : List Nat :=
      if st.descend n then
        (((g.adjEntries n).filter (fun a => !visited1 a.twin && st.visit a)).map
          (fun a => a.twin))
      else []
    { st with
      pending := (rest ++ enq).dropWhile visited1
      visited := visited1 }

/-- Embeds `FilteringBFS::current`: the front of the pending queue (the C++
assertion `!m_pending.empty()` becomes the partiality of `head?`). -/
def currentOpt (st : FilteringBFS) : Option Nat :=
  st.pending.head?

/-- Embeds `FilteringBFS::valid`. -/
def valid (st : FilteringBFS) : Bool :=
  !st.pending.isEmpty

/-- The queue invariant: whenever the queue is nonempty, its front node is
unvisited. -/
def FrontUnvisited (st : FilteringBFS) : Prop :=
  ∀ n, currentOpt st = some n → st.visited n = false

/-- Iterated `next` steps from a state. -/
def steps (g : BfsGraph) (st : FilteringBFS) : Nat → FilteringBFS
  | 0 => st
  | k + 1 => next g (steps g st k)

theorem dropWhile_head_false {α : Type} (p : α → Bool) :
    ∀ (l : List α) (a : α), (l.dropWhile p).head? = some a → p a = false := by
  intro l
  induction l with
  | nil => intro a ha; simp [List.dropWhile] at ha
  | cons x xs ih =>
    intro a ha
    by_cases hx : p x
    · rw [List.dropWhile_cons_of_pos hx] at ha
      exact ih a ha
    · rw [List.dropWhile_cons_of_neg hx] at ha
      simp at ha
      subst ha
      simpa using hx

/-- After any `next` step the front of the queue is unvisited: the drain
loop at the end of `FilteringBFS::next` removes every visited node from the
front. -/
theorem frontUnvisited_next (g : BfsGraph) (st : FilteringBFS) :
    FrontUnvisited (next g st) := by
  intro n hn
  cases h : st.pending with
  | nil =>
    simp only [next, h, currentOpt] at hn
    simp [h] at hn
  | cons x rest =>
    simp only [next, h, currentOpt] at hn ⊢
    exact dropWhile_head_false _ _ n hn

end BFS

namespace BFS

/-- Visited flags are never cleared by `next` (only `append`, absent here,
resets one). -/
theorem visited_mono_next (g : BfsGraph) (st : FilteringBFS) (m : Nat)
    (h : st.visited m = true) : (next g st).visited m = true := by
  cases hp : st.pending with
  | nil => simpa [next, hp] using h
  | cons x rest =>
    simp only [next, hp]
    by_cases hm : m = x <;> simp [hm, h]

/-- The popped front node is marked visited by `next`. -/
theorem next_marks_front (g : BfsGraph) (st : FilteringBFS) (x : Nat) (rest : List Nat)
    (h : st.pending = x :: rest) : (next g st).visited x = true := by
  simp [next, h]

theorem visited_mono_steps (g : BfsGraph) (st : FilteringBFS) (m : Nat) (i j : Nat)
    (hij : i ≤ j) (h : (steps g st i).visited m = true) :
    (steps g st j).visited m = true := by
  induction j with
  | zero =>
    have : i = 0 := Nat.le_zero.mp hij
    simpa [this] using h
  | succ k ih =>
    rcases Nat.lt_or_ge i (k + 1) with hlt | hge
    · have hik : i ≤ k := Nat.lt_succ_iff.mp hlt
      exact visited_mono_next g (steps g st k) m (ih hik)
    · have : i = k + 1 := Nat.le_antisymm hij hge
      simpa [this] using h

/-- A concrete two-node graph (a single edge between nodes 0 and 1) for the
witness. -/
def bfsExampleGraph : BfsGraph where
  adjEntries := fun n =>
    if n = 0 then [⟨0, 1⟩] else if n = 1 then [⟨0, 0⟩] else []

end BFS

/-- Claim C10: a FilteringBFS traversal started by the constructor maintains
the invariant that whenever the pending queue is nonempty its front node is
unvisited (so `current` never returns an already-visited node), and — absent
`append` calls — each node is returned by `current` at most once over the
whole traversal: the nodes current at two different steps are distinct. -/
theorem claim_C10_bfs_front_unvisited_and_once (g : BFS.BfsGraph) (init : List Nat)
    (vf : BFS.BfsAdj → Bool) (df : Nat → Bool) :
    (∀ k, BFS.FrontUnvisited (BFS.steps g (BFS.mkBFS init vf df) k))
    ∧ (∀ i j xi xj, i < j →
        BFS.currentOpt (BFS.steps g (BFS.mkBFS init vf df) i) = some xi →
        BFS.currentOpt (BFS.steps g (BFS.mkBFS init vf df) j) = some xj →
        xi ≠ xj) := by
  have hinv : ∀ k, BFS.FrontUnvisited (BFS.steps g (BFS.mkBFS init vf df) k) := by
    intro k
    cases k with
    | zero =>
      intro n _
      rfl
    | succ m => exact BFS.frontUnvisited_next g (BFS.steps g (BFS.mkBFS init vf df) m)
  refine ⟨hinv, ?_⟩
  intro i j xi xj hij hi hj heq
  subst heq
  have hpend : ∃ r2, (BFS.steps g (BFS.mkBFS init vf df) i).pending = xi :: r2 := by
    unfold BFS.currentOpt at hi
    cases hp : (BFS.steps g (BFS.mkBFS init vf df) i).pending with
    | nil => rw [hp] at hi; exact absurd hi (by simp)
    | cons y r2 =>
      rw [hp] at hi
      simp at hi
      subst hi
      exact ⟨r2, rfl⟩
  obtain ⟨rest, hp⟩ := hpend
  have hmarked : (BFS.steps g (BFS.mkBFS init vf df) (i + 1)).visited xi = true :=
    BFS.next_marks_front g (BFS.steps g (BFS.mkBFS init vf df) i) xi rest hp
  have hstill : (BFS.steps g (BFS.mkBFS init vf df) j).visited xi = true :=
    BFS.visited_mono_steps g (BFS.mkBFS init vf df) xi (i + 1) j hij hmarked
  have hfree : (BFS.steps g (BFS.mkBFS init vf df) j).visited xi = false :=
    hinv j xi hj
  rw [hstill] at hfree
  exact Bool.noConfusion hfree

/-- Witness for C10: on the single-edge graph, node 0 is current initially
and node 1 after one step, and the theorem yields that they differ. -/
theorem claim_C10_witness :
    BFS.currentOpt (BFS.steps BFS.bfsExampleGraph
        (BFS.mkBFS [0] (fun _ => true) (fun _ => true)) 0) = some 0
    ∧ BFS.currentOpt (BFS.steps BFS.bfsExampleGraph
        (BFS.mkBFS [0] (fun _ => true) (fun _ => true)) 1) = some 1
    ∧ (0 : Nat) ≠ 1 :=
  ⟨rfl, rfl,
    (claim_C10_bfs_front_unvisited_and_once BFS.bfsExampleGraph [0]
        (fun _ => true) (fun _ => true)).2 0 1 0 1 (by decide) rfl rfl⟩

namespace SPQRRot

/-- Type of an original graph node with respect to the BC-tree
(`BCTree::GNodeType` in the source): an ordinary node or a cut vertex
(the boundary/virtual case of the constructor's assertion). -/
inductive GNodeType where
  | Normal : GNodeType
  | CutVertex : GNodeType
deriving DecidableEq

/-- Modelled from the spec: the bodies of `findSPQRApex` and `makePCNode`
(which build the PC tree during `NodeSPQRRotation` construction) are not
among the sources.  Per the spec, the construction walks the SPQR tree from
the apex and attaches one PC-tree leaf for every real incident edge of the
original node, i.e. every incident edge reachable without crossing back
through the apex.  This record captures the data the assertion at the end of
the constructor depends on: the original node's incident edges, which of
them receive a leaf, and the node's BC-tree type. -/
structure ApexWalk where
  incidentEdges : List Nat
  givesLeaf : Nat → Bool
  gtype : GNodeType

/-- The leaves attached by the construction walk: one per incident edge
admitted by the walk. -/
def leavesOfWalk (w : ApexWalk) : List Nat :=
  w.incidentEdges.filter w.givesLeaf

/-- `getLeafCount()` of the resulting PC tree. -/
def getLeafCount (w : ApexWalk) : Nat :=
  (leavesOfWalk w).length

/-- `o->degree()` of the original node. -/
def degree (w : ApexWalk) : Nat :=
  w.incidentEdges.length

/-- Modelled from the spec: a node of type `Normal` lies entirely within one
biconnected component, so the walk admits every one of its incident edges
(each gets a leaf); only boundary/virtual node types may drop edges. -/
def NormalAllReal (w : ApexWalk) : Prop :=
  w.gtype = GNodeType.Normal → ∀ e ∈ w.incidentEdges, w.givesLeaf e = true

end SPQRRot

/-- Claim C7: at the end of `NodeSPQRRotation` construction the asserted
invariant holds — for an original node of type `Normal` the PC-tree leaf
count equals the node's degree, and for every other (boundary/virtual) node
type the leaf count is at most the degree. -/
theorem claim_C7_leaf_count_invariant (w : SPQRRot.ApexWalk)
    (hreal : SPQRRot.NormalAllReal w) :
    (w.gtype = SPQRRot.GNodeType.Normal →
      SPQRRot.getLeafCount w = SPQRRot.degree w)
    ∧ SPQRRot.getLeafCount w ≤ SPQRRot.degree w := by
  constructor
  · intro hty
    unfold SPQRRot.getLeafCount SPQRRot.leavesOfWalk SPQRRot.degree
    rw [List.filter_eq_self.mpr (hreal hty)]
  · exact List.length_filter_le _ _

/-- Witness for C7 on a concrete walk: a Normal node of degree 3 with all
edges real has leaf count 3, which is also at most the degree. -/
theorem claim_C7_witness :
    SPQRRot.getLeafCount ⟨[4, 5, 6], fun _ => true, SPQRRot.GNodeType.Normal⟩
        = SPQRRot.degree ⟨[4, 5, 6], fun _ => true, SPQRRot.GNodeType.Normal⟩
    ∧ SPQRRot.getLeafCount ⟨[4, 5, 6], fun _ => true, SPQRRot.GNodeType.Normal⟩
        ≤ SPQRRot.degree ⟨[4, 5, 6], fun _ => true, SPQRRot.GNodeType.Normal⟩ :=
  ⟨(claim_C7_leaf_count_invariant ⟨[4, 5, 6], fun _ => true, SPQRRot.GNodeType.Normal⟩
      (fun _ e _ => rfl)).1 rfl,
   (claim_C7_leaf_count_invariant ⟨[4, 5, 6], fun _ => true, SPQRRot.GNodeType.Normal⟩
      (fun _ e _ => rfl)).2⟩

namespace ClusterSP

/-- The cluster hierarchy as a rose tree of cluster indices (the root
cluster is the tree's root). -/
inductive CTree where
  | node : Nat → List CTree → CTree

def CTree.index : CTree → Nat
  | .node i _ => i

mutual
/-- Modelled from the spec: the post-order cluster iteration
(`firstPostOrderCluster`/`pSucc`, implemented in the ClusterGraph sources
which are not part of the excerpt) walks the cluster tree in post-order —
children before parents, root last.  `postOrderSub t p` lists the clusters
of the subtree `t` (whose root has parent `p`) in post-order, each paired
with its parent's index, ending in `t`'s own root. -/
def postOrderSub : CTree → Nat → List (Nat × Nat)
  | .node i cs, p => postOrderList cs i ++ [(i, p)]
/-- Modelled from the spec: post-order listing of a forest of sibling
subtrees `cs` whose roots all have parent `p`. -/
def postOrderList : List CTree → Nat → List (Nat × Nat)
  | [], _ => []
  | t :: ts, p => postOrderSub t p ++ postOrderList ts p
end

/-- The full post-order index sequence of a cluster tree, root last. -/
def postOrder : CTree → List Nat
  | .node r cs => (postOrderList cs r).map Prod.fst ++ [r]

/-- The clusters the SyncPlan constructor iterates over: all clusters in
post-order, excluding (and hence up to) the root, each with its parent. -/
def nonRootClusters : CTree → List (Nat × Nat)
  | .node r cs => postOrderList cs r

/-- The post-order cluster sequence with `Option`al parents (the root has
none), as walked by the `UndoInitCluster` constructor. -/
def postOrderFull : CTree → List (Nat × Option Nat)
  | .node r cs =>
      (postOrderList cs r).map (fun x => (x.1, some x.2)) ++ [(r, none)]

/-- `ChildIn t p c`: somewhere in the tree `t` a cluster of index `p` has a
direct child cluster of index `c`. -/
inductive ChildIn : CTree → Nat → Nat → Prop where
  | here : ∀ i cs c, c ∈ cs → ChildIn (CTree.node i cs) i c.index
  | deeper : ∀ i cs t p c, t ∈ cs → ChildIn t p c → ChildIn (CTree.node i cs) p c

/-- `a` occurs strictly before `b` in the list `l`. -/
def before (l : List Nat) (a b : Nat) : Prop :=
  ∃ l1 l2, l = l1 ++ l2 ∧ a ∈ l1 ∧ b ∈ l2

theorem self_mem_postOrderSub (t : CTree) (p : Nat) :
    (t.index, p) ∈ postOrderSub t p := by
  cases t with
  | node i cs =>
    simp [postOrderSub, CTree.index]

theorem postOrderList_decomp {cs : List CTree} {t : CTree} (h : t ∈ cs) (p : Nat) :
    ∃ A B, postOrderList cs p = A ++ postOrderSub t p ++ B := by
  induction cs with
  | nil => cases h
  | cons s ss ih =>
    rcases List.mem_cons.mp h with rfl | hmem
    · exact ⟨[], postOrderList ss p, by simp [postOrderList]⟩
    · obtain ⟨A, B, hAB⟩ := ih hmem
      exact ⟨postOrderSub s p ++ A, B, by simp [postOrderList, hAB]⟩

theorem map_fst_postOrderSub (t : CTree) (p : Nat) :
    (postOrderSub t p).map Prod.fst = postOrder t := by
  cases t with
  | node i cs => simp [postOrderSub, postOrder]

/-- Children appear strictly before their parents in the post-order
sequence. -/
theorem childIn_before_postOrder (t : CTree) (p c : Nat) (h : ChildIn t p c) :
    before (postOrder t) c p := by
  induction h with
  | here i cs s hs =>
    obtain ⟨A, B, hAB⟩ := postOrderList_decomp hs i
    refine ⟨(postOrderList cs i).map Prod.fst, [i], by simp [postOrder], ?_, by simp⟩
    rw [hAB]
    simp only [List.map_append, List.mem_append]
    left; right
    rw [map_fst_postOrderSub]
    cases s with
    | node j ds =>
      simp [postOrder, CTree.index]
  | deeper i cs s q d hs hcd ih =>
    obtain ⟨A, B, hAB⟩ := postOrderList_decomp hs i
    obtain ⟨m1, m2, hm, hc, hq⟩ := ih
    rw [← map_fst_postOrderSub s i] at hm
    refine ⟨A.map Prod.fst ++ m1,
      m2 ++ B.map Prod.fst ++ [i], ?_, by simp [hc], by simp [hq]⟩
    simp only [postOrder, hAB, List.map_append]
    rw [hm]
    simp
end ClusterSP

namespace ClusterSP

/-- An adjacency entry (`adjEntry`): an edge identifier together with which
of the edge's two endpoints this entry sits at. -/
structure Half where
  eid : Nat
  side : Bool
deriving DecidableEq

/-- The mutable graph: fresh-node and fresh-edge counters, the node list,
the endpoint pair of every edge, and the per-node adjacency lists in cyclic
order. -/
structure Graph where
  nextNode : Nat
  nodes : List Nat
  nextEdge : Nat
  ends : Nat → Nat × Nat
  adj : Nat → List Half

/-- The node an adjacency entry sits at. -/
def nodeOfHalf (g : Graph) (h : Half) : Nat :=
  if h.side then (g.ends h.eid).2 else (g.ends h.eid).1

/-- `adj->twinNode()`: the node at the other end of the entry's edge. -/
def twinNodeOfHalf (g : Graph) (h : Half) : Nat :=
  if h.side then (g.ends h.eid).1 else (g.ends h.eid).2

/-- `adj->twin()`: the other adjacency entry of the same edge. -/
def twinHalf (h : Half) : Half :=
  ⟨h.eid, !h.side⟩

/-- Embeds `Graph::newNode`: a fresh node with empty adjacency list. -/
def newNode (g : Graph) : Nat × Graph :=
  (g.nextNode,
    { g with
      nextNode := g.nextNode + 1
      nodes := g.nodes ++ [g.nextNode]
      adj := upd g.adj g.nextNode [] })

/-- Replace one adjacency entry by another, in place. -/
def replaceHalf (l : List Half) (o v : Half) : List Half :=
  l.map (fun h => if h = o then v else h)

/-- Modelled from the spec: the body of `ogdf::sync_plan::splitEdge` (in
GraphUtils, not among the sources) reroutes one perimeter-crossing edge.
`adjT` is the entry at the external endpoint `x` of an edge `x — n`; the
edge is split into an outer edge `x — pn` and an inner edge `cn — n`, with
`x`'s and `n`'s entries replaced in place and one fresh entry appended to
each of `pn`'s and `cn`'s adjacency lists (accumulating, call by call, the
bijection between `cn`'s and `pn`'s incident edges). -/
def splitEdge (g : Graph) (adjT : Half) (pn cn : Nat) : Graph :=
  let x := nodeOfHalf g adjT
  let n := twinNodeOfHalf g adjT
  let e1 := g.nextEdge
  let e2 := g.nextEdge + 1
  let a1 := upd g.adj x (replaceHalf (g.adj x) adjT ⟨e1, false⟩)
  let a2 := upd a1 n (replaceHalf (a1 n) (twinHalf adjT) ⟨e2, true⟩)
  let a3 := upd a2 pn (a2 pn ++ [⟨e1, true⟩])
  let a4 := upd a3 cn (a3 cn ++ [⟨e2, false⟩])
  { g with
    nextEdge := g.nextEdge + 2
    ends := upd (upd g.ends e1 (x, pn)) e2 (cn, n)
    adj := a4 }

/-- Embeds `Graph::reverseAdjEdges`: reverse one node's cyclic adjacency
order. -/
def reverseAdjEdges (g : Graph) (n : Nat) : Graph :=
  { g with adj := upd g.adj n (g.adj n).reverse }

end ClusterSP

namespace ClusterSP

/-- The node-to-cluster assignment of a `ClusterGraph`, as the ordered list
of (node, cluster) entries; the relative order of entries with the same
cluster is the order of that cluster's node list. -/
def clusterOf (al : List (Nat × Nat)) (n : Nat) : Option Nat :=
  (al.find? (fun p => p.1 == n)).map Prod.snd

/-- The node list of cluster `c` (`c->nodes`). -/
def nodesOf (al : List (Nat × Nat)) (c : Nat) : List Nat :=
  (al.filter (fun p => p.2 == c)).map Prod.fst

/-- Embeds `ClusterGraph::reassignNode`: remove the node from its current
cluster's list and append it to the back of cluster `c`'s list. -/
def reassignNode (al : List (Nat × Nat)) (n c : Nat) : List (Nat × Nat) :=
  al.filter (fun p => p.1 != n) ++ [(n, c)]

/-- Each node has at most one assignment entry. -/
def KeysNodup (al : List (Nat × Nat)) : Prop :=
  (al.map Prod.fst).Nodup

theorem clusterOf_reassign_self (al : List (Nat × Nat)) (n c : Nat) :
    clusterOf (reassignNode al n c) n = some c := by
  unfold clusterOf reassignNode
  rw [List.find?_append]
  have h : (al.filter (fun p => p.1 != n)).find? (fun p => p.1 == n) = none := by
    apply List.find?_eq_none.mpr
    intro x hx
    have hne := (List.mem_filter.mp hx).2
    simp only [bne_iff_ne, ne_eq] at hne
    simp [hne]
  rw [h]
  simp

theorem find?_key_filter_ne (tl : List (Nat × Nat)) (n m : Nat) (h : m ≠ n) :
    (tl.filter (fun p => p.1 != n)).find? (fun p => p.1 == m)
      = tl.find? (fun p => p.1 == m) := by
  induction tl with
  | nil => rfl
  | cons a tl ih =>
    by_cases ha1 : a.1 = n
    · have ham : (a.1 == m) = false := by simp [ha1, Ne.symm h]
      rw [List.filter_cons_of_neg (by simp [ha1]),
        List.find?_cons_of_neg _ (by simp [ha1, Ne.symm h]), ih]
    · by_cases ham : a.1 = m
      · rw [List.filter_cons_of_pos (by simp [ha1]),
          List.find?_cons_of_pos _ (by simp [ham]),
          List.find?_cons_of_pos _ (by simp [ham])]
      · rw [List.filter_cons_of_pos (by simp [ha1]),
          List.find?_cons_of_neg _ (by simp [ham]),
          List.find?_cons_of_neg _ (by simp [ham]), ih]

theorem clusterOf_reassign_other (al : List (Nat × Nat)) (n c m : Nat) (h : m ≠ n) :
    clusterOf (reassignNode al n c) m = clusterOf al m := by
  unfold clusterOf reassignNode
  rw [List.find?_append, find?_key_filter_ne al n m h]
  cases al.find? (fun p => p.1 == m) with
  | none =>
    rw [List.find?_cons_of_neg _ (by simp [Ne.symm h])]
    simp
  | some p =>
    simp

theorem keysNodup_reassign (al : List (Nat × Nat)) (n c : Nat) (h : KeysNodup al) :
    KeysNodup (reassignNode al n c) := by
  unfold KeysNodup reassignNode
  rw [List.map_append, List.nodup_append]
  refine ⟨((List.filter_sublist al).map Prod.fst).nodup h, by simp, ?_⟩
  intro x hx
  simp only [List.mem_map] at hx
  obtain ⟨p, hp, rfl⟩ := hx
  have hne := (List.mem_filter.mp hp).2
  simp only [bne_iff_ne, ne_eq] at hne
  simp [hne]

theorem clusterOf_eq_of_mem (al : List (Nat × Nat)) (n c : Nat)
    (hnd : KeysNodup al) (hm : (n, c) ∈ al) : clusterOf al n = some c := by
  unfold clusterOf
  induction al with
  | nil => cases hm
  | cons a tl ih =>
    unfold KeysNodup at hnd
    rw [List.map_cons, List.nodup_cons] at hnd
    rcases List.mem_cons.mp hm with rfl | htl
    · rw [List.find?_cons_of_pos _ (by simp)]
      rfl
    · have ha1 : a.1 ≠ n := by
        intro hh
        exact hnd.1 (hh ▸ List.mem_map_of_mem Prod.fst htl)
      rw [List.find?_cons_of_neg _ (by simp [ha1])]
      exact ih hnd.2 htl

theorem mem_of_mem_nodesOf (al : List (Nat × Nat)) (c n : Nat)
    (h : n ∈ nodesOf al c) : (n, c) ∈ al := by
  unfold nodesOf at h
  simp only [List.mem_map, List.mem_filter, beq_iff_eq] at h
  obtain ⟨p, ⟨hp, hc⟩, rfl⟩ := h
  have : p = (p.1, c) := by
    cases p
    simp_all
  rw [← this]
  exact hp

theorem mem_nodesOf_of_mem (al : List (Nat × Nat)) (c n : Nat)
    (h : (n, c) ∈ al) : n ∈ nodesOf al c := by
  unfold nodesOf
  simp only [List.mem_map, List.mem_filter, beq_iff_eq]
  exact ⟨(n, c), ⟨h, rfl⟩, rfl⟩

theorem nodesOf_nodup (al : List (Nat × Nat)) (c : Nat) (h : KeysNodup al) :
    (nodesOf al c).Nodup := by
  unfold nodesOf
  have hsub : List.Sublist ((al.filter (fun p => p.2 == c)).map Prod.fst)
      (al.map Prod.fst) :=
    (List.filter_sublist al).map Prod.fst
  exact hsub.nodup h

end ClusterSP

namespace ClusterSP

theorem splitEdge_nextNode (g : Graph) (adjT : Half) (pn cn : Nat) :
    (splitEdge g adjT pn cn).nextNode = g.nextNode := rfl

theorem splitEdge_nodes (g : Graph) (adjT : Half) (pn cn : Nat) :
    (splitEdge g adjT pn cn).nodes = g.nodes := rfl

theorem splitEdge_nextEdge (g : Graph) (adjT : Half) (pn cn : Nat) :
    (splitEdge g adjT pn cn).nextEdge = g.nextEdge + 2 := rfl

theorem splitEdge_ends_lt (g : Graph) (adjT : Half) (pn cn : Nat) (e : Nat)
    (he : e < g.nextEdge) : (splitEdge g adjT pn cn).ends e = g.ends e := by
  have h1 : e ≠ g.nextEdge := Nat.ne_of_lt he
  have h2 : e ≠ g.nextEdge + 1 := by omega
  simp [splitEdge, upd, h1, h2]

theorem splitEdge_adj_pn (g : Graph) (adjT : Half) (pn cn : Nat)
    (hx : pn ≠ nodeOfHalf g adjT) (hn : pn ≠ twinNodeOfHalf g adjT) (hc : pn ≠ cn) :
    (splitEdge g adjT pn cn).adj pn = g.adj pn ++ [⟨g.nextEdge, true⟩] := by
  simp [splitEdge, upd, hx, hn, hc]

theorem splitEdge_adj_cn (g : Graph) (adjT : Half) (pn cn : Nat)
    (hx : cn ≠ nodeOfHalf g adjT) (hn : cn ≠ twinNodeOfHalf g adjT) (hc : pn ≠ cn) :
    (splitEdge g adjT pn cn).adj cn = g.adj cn ++ [⟨g.nextEdge + 1, false⟩] := by
  simp [splitEdge, upd, hx, hn, Ne.symm hc]

theorem splitEdge_adj_other (g : Graph) (adjT : Half) (pn cn : Nat) (m : Nat)
    (hx : m ≠ nodeOfHalf g adjT) (hn : m ≠ twinNodeOfHalf g adjT)
    (hp : m ≠ pn) (hc : m ≠ cn) :
    (splitEdge g adjT pn cn).adj m = g.adj m := by
  simp [splitEdge, upd, hx, hn, hp, hc]

/-- The inner edge-rerouting loop of the SyncPlan constructor: split every
collected perimeter-crossing entry `adj` of a node, attaching the pieces to
`pn` and `cn` (`splitEdge(*G, adj->twin(), pn, cn)` for each entry in
order). -/
def splitAll (g : Graph) (hs : List Half) (pn cn : Nat) : Graph :=
  hs.foldl (fun gg a => splitEdge gg (twinHalf a) pn cn) g

/-- An adjacency entry whose edge exists and touches neither `pn` nor `cn`;
this is the situation of every perimeter-crossing entry handed to
`splitEdge` (its endpoints exist already, the two gray nodes are fresh). -/
def EdgeOK (g : Graph) (pn cn : Nat) (a : Half) : Prop :=
  a.eid < g.nextEdge
    ∧ (g.ends a.eid).1 ≠ pn ∧ (g.ends a.eid).1 ≠ cn
    ∧ (g.ends a.eid).2 ≠ pn ∧ (g.ends a.eid).2 ≠ cn

theorem nodeOfHalf_mem_ends (g : Graph) (h : Half) :
    nodeOfHalf g h = (g.ends h.eid).1 ∨ nodeOfHalf g h = (g.ends h.eid).2 := by
  cases hs : h.side <;> simp [nodeOfHalf, hs]

theorem twinNodeOfHalf_mem_ends (g : Graph) (h : Half) :
    twinNodeOfHalf g h = (g.ends h.eid).1 ∨ twinNodeOfHalf g h = (g.ends h.eid).2 := by
  cases hs : h.side <;> simp [twinNodeOfHalf, hs]

theorem ne_of_ends_ne (g : Graph) (h : Half) (v : Nat)
    (h1 : (g.ends h.eid).1 ≠ v) (h2 : (g.ends h.eid).2 ≠ v) :
    v ≠ nodeOfHalf g h ∧ v ≠ twinNodeOfHalf g h := by
  cases hs : h.side <;> simp only [nodeOfHalf, twinNodeOfHalf, hs] <;>
    simp [Ne.symm h1, Ne.symm h2]

theorem range_shift_cons (E k : Nat) (b : Bool) :
    (⟨E, b⟩ : Half) :: (List.range k).map (fun i => (⟨E + 2 + 2 * i, b⟩ : Half))
      = (List.range (k + 1)).map (fun i => (⟨E + 2 * i, b⟩ : Half)) := by
  rw [List.range_succ_eq_map, List.map_cons, List.map_map]
  refine congrArg₂ List.cons (by simp) ?_
  apply List.map_congr_left
  intro i _
  simp [Function.comp]
  omega

theorem range_shift_cons1 (E k : Nat) (b : Bool) :
    (⟨E + 1, b⟩ : Half) :: (List.range k).map (fun i => (⟨E + 2 + 2 * i + 1, b⟩ : Half))
      = (List.range (k + 1)).map (fun i => (⟨E + 2 * i + 1, b⟩ : Half)) := by
  rw [List.range_succ_eq_map, List.map_cons, List.map_map]
  refine congrArg₂ List.cons (by simp) ?_
  apply List.map_congr_left
  intro i _
  simp [Function.comp]
  omega

/-- Effect of the edge-rerouting loop: each split appends one fresh entry to
`pn` and the matching fresh entry to `cn`, in call order; nodes, the fresh
node counter, pre-existing edge endpoints, and the adjacency of every
uninvolved node are untouched. -/
theorem splitAll_spec (hs : List Half) (g : Graph) (pn cn : Nat)
    (hok : ∀ a ∈ hs, EdgeOK g pn cn a) (hpc : pn ≠ cn) :
    (splitAll g hs pn cn).adj pn
        = g.adj pn ++ (List.range hs.length).map (fun i => (⟨g.nextEdge + 2 * i, true⟩ : Half))
    ∧ (splitAll g hs pn cn).adj cn
        = g.adj cn ++ (List.range hs.length).map (fun i => (⟨g.nextEdge + 2 * i + 1, false⟩ : Half))
    ∧ (splitAll g hs pn cn).nextEdge = g.nextEdge + 2 * hs.length
    ∧ (splitAll g hs pn cn).nextNode = g.nextNode
    ∧ (splitAll g hs pn cn).nodes = g.nodes
    ∧ (∀ e, e < g.nextEdge → (splitAll g hs pn cn).ends e = g.ends e)
    ∧ (∀ m, m ≠ pn → m ≠ cn →
        (∀ a ∈ hs, m ≠ (g.ends a.eid).1 ∧ m ≠ (g.ends a.eid).2) →
        (splitAll g hs pn cn).adj m = g.adj m) := by
  induction hs generalizing g with
  | nil =>
    refine ⟨by simp [splitAll], by simp [splitAll], by simp [splitAll],
      rfl, rfl, fun e _ => rfl, fun m _ _ _ => rfl⟩
  | cons a tl ih =>
    have hoka := hok a (List.mem_cons_self a tl)
    obtain ⟨heid, h1p, h1c, h2p, h2c⟩ := hoka
    obtain ⟨hxp, hnp⟩ := ne_of_ends_ne g (twinHalf a) pn h1p h2p
    obtain ⟨hxc, hnc⟩ := ne_of_ends_ne g (twinHalf a) cn h1c h2c
    have hstep : splitAll g (a :: tl) pn cn
        = splitAll (splitEdge g (twinHalf a) pn cn) tl pn cn := rfl
    have hg1ne : (splitEdge g (twinHalf a) pn cn).nextEdge = g.nextEdge + 2 :=
      splitEdge_nextEdge g (twinHalf a) pn cn
    have hg1ends : ∀ e, e < g.nextEdge →
        (splitEdge g (twinHalf a) pn cn).ends e = g.ends e := fun e he =>
      splitEdge_ends_lt g (twinHalf a) pn cn e he
    have hok1 : ∀ b ∈ tl, EdgeOK (splitEdge g (twinHalf a) pn cn) pn cn b := by
      intro b hb
      obtain ⟨hbe, hb1p, hb1c, hb2p, hb2c⟩ := hok b (List.mem_cons_of_mem a hb)
      refine ⟨by rw [hg1ne]; omega, ?_, ?_, ?_, ?_⟩ <;>
        rw [hg1ends b.eid hbe] <;> assumption
    obtain ⟨ihp, ihc, ihe, ihn, ihns, ihends, ihother⟩ :=
      ih (splitEdge g (twinHalf a) pn cn) hok1
    refine ⟨?_, ?_, ?_, ?_, ?_, ?_, ?_⟩
    · rw [hstep, ihp, splitEdge_adj_pn g (twinHalf a) pn cn hxp hnp hpc, hg1ne]
      rw [List.append_assoc, List.singleton_append, range_shift_cons]
      simp
    · rw [hstep, ihc, splitEdge_adj_cn g (twinHalf a) pn cn hxc hnc hpc, hg1ne]
      rw [List.append_assoc, List.singleton_append, range_shift_cons1]
      simp
    · rw [hstep, ihe, hg1ne]
      simp
      omega
    · rw [hstep, ihn, splitEdge_nextNode]
    · rw [hstep, ihns, splitEdge_nodes]
    · intro e he
      rw [hstep, ihends e (by rw [hg1ne]; omega), hg1ends e he]
    · intro m hmp hmc hme
      have hma := hme a (List.mem_cons_self a tl)
      obtain ⟨hmx, hmn⟩ := ne_of_ends_ne g (twinHalf a) m (Ne.symm hma.1) (Ne.symm hma.2)
      rw [hstep, ihother m hmp hmc ?_,
        splitEdge_adj_other g (twinHalf a) pn cn m hmx hmn hmp hmc]
      intro b hb
      obtain ⟨hbe, _, _, _, _⟩ := hok b (List.mem_cons_of_mem a hb)
      rw [hg1ends b.eid hbe]
      exact hme b (List.mem_cons_of_mem a hb)

end ClusterSP

namespace ClusterSP

/-- One frozen cluster record (struct `FrozenCluster` of the source):
cluster index, parent index (`none` for the root, `-1` in C++), the
child-side gray node stored later by the constructor, and the indices of the
cluster's nodes at freeze time. -/
structure FrozenCluster where
  index : Nat
  parent : Option Nat
  parent_node : Option Nat
  nodes : List Nat

/-- A pipe: the matched pair of gray nodes registered by
`matchings.matchNodes(cn, pn)`. -/
structure Pipe where
  cn : Nat
  pn : Nat
deriving DecidableEq

/-- The SyncPlan state the claims touch: the graph, the node-to-cluster
assignment, and the registered pipes. -/
structure SPState where
  G : Graph
  assignList : List (Nat × Nat)
  pipes : List Pipe

/-- Embeds the `UndoInitCluster` constructor: walk all clusters in
post-order and `emplaceFront` a frozen record for each (so the resulting
list is reverse post-order, root first), storing the cluster's node indices
at freeze time; `parent_node` is filled in later by the SyncPlan
constructor. -/
def freezeClusters (t : CTree) (al : List (Nat × Nat)) : List FrozenCluster :=
  ((postOrderFull t).map (fun x => ⟨x.1, x.2, none, nodesOf al x.1⟩)).reverse

/-- The SyncPlan constructor's write `(*fc_it).parent_node = cn->index()`,
located here by cluster index (the iterator walks the frozen list in sync
with the cluster traversal). -/
def setParentNode (fr : List FrozenCluster) (c cnId : Nat) : List FrozenCluster :=
  fr.map (fun f => if f.index = c then { f with parent_node := some cnId } else f)

/-- The perimeter-crossing adjacency entries of node `n` of cluster `c`:
those whose twin node lies in a different cluster
(`c != cg->clusterOf(adj->twinNode())`). -/
def crossingOf (g : Graph) (al : List (Nat × Nat)) (c n : Nat) : List Half :=
  (g.adj n).filter (fun a => decide (clusterOf al (twinNodeOfHalf g a) ≠ some c))

/-- Per-node body of the constructor's rerouting loop: collect the node's
perimeter-crossing entries, split each of them towards `pn`/`cn`, and add
their number to the running count. -/
def processNode (al : List (Nat × Nat)) (c pn cn : Nat) (acc : Graph × Nat) (n : Nat) :
    Graph × Nat :=
  (splitAll acc.1 (crossingOf acc.1 al c n) pn cn,
    acc.2 + (crossingOf acc.1 al c n).length)

/-- One iteration of the SyncPlan constructor's main loop for a non-root
cluster `c` with parent `pc`: create the gray nodes `cn` and `pn`, assign
`cn` to `c` and `pn` to `pc`, reroute every perimeter-crossing edge of `c`'s
nodes (skipping `cn`), reverse `pn`'s adjacency order unless no crossing
edge existed, and register the pipe `(cn, pn)`. -/
def stepCluster (st : SPState) (c pc : Nat) : SPState :=
  let cnp := newNode st.G
  let pnp := newNode cnp.2
  let al2 := reassignNode (reassignNode st.assignList cnp.1 c) pnp.1 pc
  let gd := ((nodesOf al2 c).filter (fun n => n != cnp.1)).foldl
    (processNode al2 c pnp.1 cnp.1) (pnp.2, 0)
  { G := if gd.2 = 0 then gd.1 else reverseAdjEdges gd.1 pnp.1
    assignList := al2
    pipes := st.pipes ++ [⟨cnp.1, pnp.1⟩] }

/-- The root cluster's index. -/
def rootIndex : CTree → Nat
  | .node r _ => r

/-- Effect of the flattening while-loop
`while (!c->nodes.empty()) cg->reassignNode(c->nodes.front(), root)`:
cluster `c`'s nodes are moved, front first, to the back of the root
cluster's list. -/
def flattenStep (al : List (Nat × Nat)) (c root : Nat) : List (Nat × Nat) :=
  al.filter (fun p => p.2 != c) ++ (al.filter (fun p => p.2 == c)).map (fun p => (p.1, root))

/-- Embeds the `SyncPlan` constructor (cluster part): freeze the hierarchy,
process every non-root cluster in post-order (gray nodes, rerouting, pipe
registration, recording `parent_node` in the frozen record), then flatten
the hierarchy by moving every non-root cluster's nodes to the root cluster.
Returns the resulting state and the frozen cluster list held by the pushed
`UndoInitCluster` operation. -/
def initSyncPlan (t : CTree) (g : Graph) (al : List (Nat × Nat)) :
    SPState × List FrozenCluster :=
  let afterMain := (nonRootClusters t).foldl
    (fun acc cp =>
      (stepCluster acc.1 cp.1 cp.2, setParentNode acc.2 cp.1 acc.1.G.nextNode))
    ((⟨g, al, []⟩ : SPState), freezeClusters t al)
  let flattened := (nonRootClusters t).foldl
    (fun al2 cp => flattenStep al2 cp.1 (rootIndex t))
    afterMain.1.assignList
  ({ afterMain.1 with assignList := flattened }, afterMain.2)

end ClusterSP

namespace ClusterSP

mutual
/-- Every parent recorded in `postOrderSub t p` is either `p` itself or one
of the listed cluster indices. -/
theorem parent_mem_sub (t : CTree) (p : Nat) :
    ∀ cp ∈ postOrderSub t p, cp.2 = p ∨ cp.2 ∈ (postOrderSub t p).map Prod.fst := by
  cases t with
  | node i cs =>
    intro cp hcp
    rw [postOrderSub] at hcp ⊢
    rcases List.mem_append.mp hcp with hin | hlast
    · rcases parent_mem_list cs i cp hin with hp | hmem
      · right
        rw [hp]
        simp
      · right
        rw [List.map_append]
        exact List.mem_append_left _ hmem
    · left
      simp at hlast
      rw [hlast]
/-- Every parent recorded in `postOrderList cs p` is either `p` itself or
one of the listed cluster indices. -/
theorem parent_mem_list (cs : List CTree) (p : Nat) :
    ∀ cp ∈ postOrderList cs p, cp.2 = p ∨ cp.2 ∈ (postOrderList cs p).map Prod.fst := by
  cases cs with
  | nil => intro cp hcp; cases hcp
  | cons t ts =>
    intro cp hcp
    rw [postOrderList] at hcp ⊢
    rcases List.mem_append.mp hcp with hin | hrest
    · rcases parent_mem_sub t p cp hin with hp | hmem
      · exact Or.inl hp
      · right
        rw [List.map_append]
        exact List.mem_append_left _ hmem
    · rcases parent_mem_list ts p cp hrest with hp | hmem
      · exact Or.inl hp
      · right
        rw [List.map_append]
        exact List.mem_append_right _ hmem
end

/-- The property of a cluster value that survives the whole constructor:
being the root or one of the traversed non-root clusters. -/
def GoodCluster (t : CTree) (x : Nat) : Prop :=
  x = rootIndex t ∨ x ∈ (nonRootClusters t).map Prod.fst

theorem goodCluster_fst (t : CTree) (cp : Nat × Nat)
    (h : cp ∈ nonRootClusters t) : GoodCluster t cp.1 :=
  Or.inr (List.mem_map_of_mem Prod.fst h)

theorem goodCluster_snd (t : CTree) (cp : Nat × Nat)
    (h : cp ∈ nonRootClusters t) : GoodCluster t cp.2 := by
  cases t with
  | node r cs =>
    rcases parent_mem_list cs r cp h with hp | hmem
    · exact Or.inl hp
    · exact Or.inr hmem

theorem reassign_clusters (al : List (Nat × Nat)) (n c : Nat) (P : Nat → Prop)
    (hal : ∀ p ∈ al, P p.2) (hc : P c) :
    ∀ p ∈ reassignNode al n c, P p.2 := by
  intro p hp
  rcases List.mem_append.mp hp with hf | hl
  · exact hal p (List.mem_of_mem_filter hf)
  · simp at hl
    rw [hl]
    exact hc

theorem stepCluster_clusters (st : SPState) (c pc : Nat) (P : Nat → Prop)
    (hal : ∀ p ∈ st.assignList, P p.2) (hc : P c) (hpc : P pc) :
    ∀ p ∈ (stepCluster st c pc).assignList, P p.2 := by
  intro p hp
  exact reassign_clusters _ _ _ P (reassign_clusters _ _ _ P hal hc) hpc p hp

theorem mainFold_clusters (t : CTree) (sub : List (Nat × Nat)) (P : Nat → Prop)
    (hsub : ∀ cp ∈ sub, P cp.1 ∧ P cp.2) :
    ∀ (acc : SPState × List FrozenCluster),
      (∀ p ∈ acc.1.assignList, P p.2) →
      ∀ p ∈ (sub.foldl
        (fun acc cp =>
          (stepCluster acc.1 cp.1 cp.2, setParentNode acc.2 cp.1 acc.1.G.nextNode))
        acc).1.assignList, P p.2 := by
  induction sub with
  | nil => intro acc hacc; exact hacc
  | cons cp sub ih =>
    intro acc hacc
    rw [List.foldl_cons]
    refine ih (fun q hq => hsub q (List.mem_cons_of_mem cp hq)) _ ?_
    exact stepCluster_clusters acc.1 cp.1 cp.2 P hacc
      (hsub cp (List.mem_cons_self cp sub)).1 (hsub cp (List.mem_cons_self cp sub)).2

theorem flattenFold_all_root (root : Nat) (sub : List (Nat × Nat)) :
    ∀ (al : List (Nat × Nat)),
      (∀ p ∈ al, p.2 = root ∨ p.2 ∈ sub.map Prod.fst) →
      ∀ p ∈ sub.foldl (fun al2 cp => flattenStep al2 cp.1 root) al, p.2 = root := by
  induction sub with
  | nil =>
    intro al hal p hp
    rcases hal p hp with h | h
    · exact h
    · cases h
  | cons cp sub ih =>
    intro al hal
    rw [List.foldl_cons]
    refine ih (flattenStep al cp.1 root) ?_
    intro p hp
    rcases List.mem_append.mp hp with hf | hm
    · have hmem := List.mem_of_mem_filter hf
      have hne := (List.mem_filter.mp hf).2
      simp only [bne_iff_ne, ne_eq] at hne
      rcases hal p hmem with h | h
      · exact Or.inl h
      · rw [List.map_cons] at h
        rcases List.mem_cons.mp h with h1 | h2
        · exact absurd h1 hne
        · exact Or.inr h2
    · simp only [List.mem_map] at hm
      obtain ⟨q, _, rfl⟩ := hm
      exact Or.inl rfl

end ClusterSP

namespace ClusterSP

theorem goodCluster_of_mem_postOrder (t : CTree) (x : Nat)
    (h : x ∈ postOrder t) : GoodCluster t x := by
  cases t with
  | node r cs =>
    rw [postOrder] at h
    rcases List.mem_append.mp h with hin | hroot
    · exact Or.inr hin
    · simp at hroot
      exact Or.inl hroot

/-- A trivial starting graph for concrete examples: no nodes, no edges. -/
def emptyGraph : Graph where
  nextNode := 100
  nodes := []
  nextEdge := 0
  ends := fun _ => (0, 0)
  adj := fun _ => []

/-- A two-cluster example tree: root 0 with a single child cluster 1. -/
def exTree : CTree :=
  CTree.node 0 [CTree.node 1 []]

/-- Node 10 sits in the child cluster 1. -/
def exAssign : List (Nat × Nat) :=
  [(10, 1)]

end ClusterSP

/-- Claim C5: after the SyncPlan constructor returns, the hierarchy is fully
flattened — every entry of the node-to-cluster assignment (original nodes
and the gray nodes created along the way alike) maps to the root cluster,
and consequently every non-root cluster's node list is empty. -/
theorem claim_C5_constructor_flattens (t : ClusterSP.CTree) (g : ClusterSP.Graph)
    (al : List (Nat × Nat))
    (hal : ∀ p ∈ al, p.2 ∈ ClusterSP.postOrder t) :
    (∀ p ∈ (ClusterSP.initSyncPlan t g al).1.assignList, p.2 = ClusterSP.rootIndex t)
    ∧ (∀ c, c ≠ ClusterSP.rootIndex t →
        ClusterSP.nodesOf (ClusterSP.initSyncPlan t g al).1.assignList c = []) := by
  have hmain : ∀ p ∈ (ClusterSP.initSyncPlan t g al).1.assignList,
      p.2 = ClusterSP.rootIndex t := by
    have hassign : (ClusterSP.initSyncPlan t g al).1.assignList
        = (ClusterSP.nonRootClusters t).foldl
            (fun al2 cp => ClusterSP.flattenStep al2 cp.1 (ClusterSP.rootIndex t))
            ((ClusterSP.nonRootClusters t).foldl
              (fun acc cp =>
                (ClusterSP.stepCluster acc.1 cp.1 cp.2,
                  ClusterSP.setParentNode acc.2 cp.1 acc.1.G.nextNode))
              ((⟨g, al, []⟩ : ClusterSP.SPState), ClusterSP.freezeClusters t al)).1.assignList :=
      rfl
    rw [hassign]
    apply ClusterSP.flattenFold_all_root (ClusterSP.rootIndex t) (ClusterSP.nonRootClusters t)
    exact ClusterSP.mainFold_clusters t (ClusterSP.nonRootClusters t) (ClusterSP.GoodCluster t)
      (fun cp hcp => ⟨ClusterSP.goodCluster_fst t cp hcp, ClusterSP.goodCluster_snd t cp hcp⟩)
      ((⟨g, al, []⟩ : ClusterSP.SPState), ClusterSP.freezeClusters t al)
      (fun p hp => ClusterSP.goodCluster_of_mem_postOrder t p.2 (hal p hp))
  refine ⟨hmain, ?_⟩
  intro c hc
  unfold ClusterSP.nodesOf
  rw [List.filter_eq_nil_iff.mpr, List.map_nil]
  intro p hp
  have := hmain p hp
  simp [this, Ne.symm hc]

/-- Witness for C5 on the two-cluster example: node 10 ends up in the root
cluster and the child cluster's node list is empty. -/
theorem claim_C5_witness :
    ClusterSP.nodesOf
        (ClusterSP.initSyncPlan ClusterSP.exTree ClusterSP.emptyGraph
          ClusterSP.exAssign).1.assignList 1 = [] :=
  (claim_C5_constructor_flattens ClusterSP.exTree ClusterSP.emptyGraph ClusterSP.exAssign
    (by decide)).2 1 (by decide)

namespace ClusterSP

/-- Well-formedness of the graph representation: adjacency entries sit at
the node whose list holds them, reference existing edges, edge endpoints and
listed nodes are below the fresh-node counter, and unallocated node ids have
empty adjacency. -/
structure GWF (g : Graph) : Prop where
  adjLoc : ∀ n, ∀ a ∈ g.adj n, nodeOfHalf g a = n
  adjEdgeBound : ∀ n, ∀ a ∈ g.adj n, a.eid < g.nextEdge
  endsBound : ∀ e, e < g.nextEdge → (g.ends e).1 < g.nextNode ∧ (g.ends e).2 < g.nextNode
  nodesBound : ∀ x ∈ g.nodes, x < g.nextNode
  freshAdj : ∀ m, g.nextNode ≤ m → g.adj m = []

theorem mem_replaceHalf {l : List Half} {o v a : Half} (h : a ∈ replaceHalf l o v) :
    a = v ∨ a ∈ l := by
  unfold replaceHalf at h
  simp only [List.mem_map] at h
  obtain ⟨b, hb, hab⟩ := h
  by_cases hbo : b = o
  · rw [hbo, if_pos rfl] at hab
    exact Or.inl hab.symm
  · rw [if_neg hbo] at hab
    exact Or.inr (hab ▸ hb)

theorem nodeOfHalf_lt (g : Graph) (hg : GWF g) (a : Half) (ha : a.eid < g.nextEdge) :
    nodeOfHalf g a < g.nextNode ∧ twinNodeOfHalf g a < g.nextNode := by
  obtain ⟨h1, h2⟩ := hg.endsBound a.eid ha
  cases hs : a.side <;> simp [nodeOfHalf, twinNodeOfHalf, hs, h1, h2]

theorem ends_ne_of_node_ne (g : Graph) (a : Half)
    (h : nodeOfHalf g a ≠ twinNodeOfHalf g a) :
    (g.ends a.eid).1 ≠ (g.ends a.eid).2 := by
  unfold nodeOfHalf twinNodeOfHalf at h
  cases hs : a.side
  · rw [hs] at h
    simpa using h
  · rw [hs] at h
    simp at h
    exact fun hh => h hh.symm

theorem splitEdge_adj_node (g : Graph) (adjT : Half) (pn cn : Nat)
    (hp : nodeOfHalf g adjT ≠ pn) (hc : nodeOfHalf g adjT ≠ cn)
    (hxn : nodeOfHalf g adjT ≠ twinNodeOfHalf g adjT) :
    (splitEdge g adjT pn cn).adj (nodeOfHalf g adjT)
      = replaceHalf (g.adj (nodeOfHalf g adjT)) adjT ⟨g.nextEdge, false⟩ := by
  simp [splitEdge, upd, hp, hc, hxn]

theorem splitEdge_adj_twinnode (g : Graph) (adjT : Half) (pn cn : Nat)
    (hp : twinNodeOfHalf g adjT ≠ pn) (hc : twinNodeOfHalf g adjT ≠ cn)
    (hxn : nodeOfHalf g adjT ≠ twinNodeOfHalf g adjT) :
    (splitEdge g adjT pn cn).adj (twinNodeOfHalf g adjT)
      = replaceHalf (g.adj (twinNodeOfHalf g adjT)) (twinHalf adjT) ⟨g.nextEdge + 1, true⟩ := by
  simp [splitEdge, upd, hp, hc, Ne.symm hxn]

theorem splitEdge_gwf (g : Graph) (adjT : Half) (pn cn : Nat) (hg : GWF g)
    (heidT : adjT.eid < g.nextEdge)
    (hxp : nodeOfHalf g adjT ≠ pn) (hxc : nodeOfHalf g adjT ≠ cn)
    (hnp : twinNodeOfHalf g adjT ≠ pn) (hnc : twinNodeOfHalf g adjT ≠ cn)
    (hxn : nodeOfHalf g adjT ≠ twinNodeOfHalf g adjT)
    (hpn : pn < g.nextNode) (hcn : cn < g.nextNode) (hpc : pn ≠ cn) :
    GWF (splitEdge g adjT pn cn) := by
  have hxlt : nodeOfHalf g adjT < g.nextNode := (nodeOfHalf_lt g hg adjT heidT).1
  have hnlt : twinNodeOfHalf g adjT < g.nextNode := (nodeOfHalf_lt g hg adjT heidT).2
  have hends1 : (splitEdge g adjT pn cn).ends g.nextEdge = (nodeOfHalf g adjT, pn) := by
    simp [splitEdge, upd]
  have hends2 : (splitEdge g adjT pn cn).ends (g.nextEdge + 1)
      = (cn, twinNodeOfHalf g adjT) := by
    simp [splitEdge, upd]
  have hendslt : ∀ e, e < g.nextEdge → (splitEdge g adjT pn cn).ends e = g.ends e :=
    fun e he => splitEdge_ends_lt g adjT pn cn e he
  have hnodeodd : ∀ a : Half, a.eid < g.nextEdge →
      nodeOfHalf (splitEdge g adjT pn cn) a = nodeOfHalf g a := by
    intro a ha
    unfold nodeOfHalf
    rw [hendslt a.eid ha]
  have hadjsplit : ∀ m, (splitEdge g adjT pn cn).adj m = g.adj m
      ∨ (m = nodeOfHalf g adjT
          ∧ (splitEdge g adjT pn cn).adj m
            = replaceHalf (g.adj m) adjT ⟨g.nextEdge, false⟩)
      ∨ (m = twinNodeOfHalf g adjT
          ∧ (splitEdge g adjT pn cn).adj m
            = replaceHalf (g.adj m) (twinHalf adjT) ⟨g.nextEdge + 1, true⟩)
      ∨ (m = pn ∧ (splitEdge g adjT pn cn).adj m = g.adj m ++ [⟨g.nextEdge, true⟩])
      ∨ (m = cn ∧ (splitEdge g adjT pn cn).adj m = g.adj m ++ [⟨g.nextEdge + 1, false⟩]) := by
    intro m
    by_cases h1 : m = cn
    · right; right; right; right
      refine ⟨h1, ?_⟩
      rw [h1]
      exact splitEdge_adj_cn g adjT pn cn (Ne.symm hxc) (Ne.symm hnc) hpc
    · by_cases h2 : m = pn
      · right; right; right; left
        refine ⟨h2, ?_⟩
        rw [h2]
        exact splitEdge_adj_pn g adjT pn cn (Ne.symm hxp) (Ne.symm hnp) hpc
      · by_cases h3 : m = twinNodeOfHalf g adjT
        · right; right; left
          refine ⟨h3, ?_⟩
          rw [h3]
          exact splitEdge_adj_twinnode g adjT pn cn hnp hnc hxn
        · by_cases h4 : m = nodeOfHalf g adjT
          · right; left
            refine ⟨h4, ?_⟩
            rw [h4]
            exact splitEdge_adj_node g adjT pn cn hxp hxc hxn
          · left
            exact splitEdge_adj_other g adjT pn cn m h4 h3 h2 h1
  constructor
  · -- adjLoc
    intro m a ha
    rcases hadjsplit m with heq | ⟨hm, heq⟩ | ⟨hm, heq⟩ | ⟨hm, heq⟩ | ⟨hm, heq⟩
    · rw [heq] at ha
      rw [hnodeodd a (hg.adjEdgeBound m a ha)]
      exact hg.adjLoc m a ha
    · rw [heq] at ha
      rcases mem_replaceHalf ha with rfl | hmem
      · unfold nodeOfHalf
        rw [hends1, hm]
        simp
      · rw [hnodeodd a (hg.adjEdgeBound m a hmem)]
        exact hg.adjLoc m a hmem
    · rw [heq] at ha
      rcases mem_replaceHalf ha with rfl | hmem
      · unfold nodeOfHalf
        rw [hends2, hm]
        simp
      · rw [hnodeodd a (hg.adjEdgeBound m a hmem)]
        exact hg.adjLoc m a hmem
    · rw [heq] at ha
      rcases List.mem_append.mp ha with hmem | hnew
      · rw [hnodeodd a (hg.adjEdgeBound m a hmem)]
        exact hg.adjLoc m a hmem
      · simp at hnew
        subst hnew
        unfold nodeOfHalf
        rw [hends1, hm]
        simp
    · rw [heq] at ha
      rcases List.mem_append.mp ha with hmem | hnew
      · rw [hnodeodd a (hg.adjEdgeBound m a hmem)]
        exact hg.adjLoc m a hmem
      · simp at hnew
        subst hnew
        unfold nodeOfHalf
        rw [hends2, hm]
        simp
  · -- adjEdgeBound
    intro m a ha
    have hne : (splitEdge g adjT pn cn).nextEdge = g.nextEdge + 2 := rfl
    rw [hne]
    rcases hadjsplit m with heq | ⟨_, heq⟩ | ⟨_, heq⟩ | ⟨_, heq⟩ | ⟨_, heq⟩ <;>
      rw [heq] at ha
    · exact lt_of_lt_of_le (hg.adjEdgeBound m a ha) (by omega)
    · rcases mem_replaceHalf ha with rfl | hmem
      · simp
      · exact lt_of_lt_of_le (hg.adjEdgeBound m a hmem) (by omega)
    · rcases mem_replaceHalf ha with rfl | hmem
      · simp
      · exact lt_of_lt_of_le (hg.adjEdgeBound m a hmem) (by omega)
    · rcases List.mem_append.mp ha with hmem | hnew
      · exact lt_of_lt_of_le (hg.adjEdgeBound m a hmem) (by omega)
      · simp at hnew
        subst hnew
        simp
    · rcases List.mem_append.mp ha with hmem | hnew
      · exact lt_of_lt_of_le (hg.adjEdgeBound m a hmem) (by omega)
      · simp at hnew
        subst hnew
        simp
  · -- endsBound
    intro e he
    have hnn : (splitEdge g adjT pn cn).nextNode = g.nextNode := rfl
    rw [hnn]
    by_cases h1 : e = g.nextEdge
    · subst h1
      rw [hends1]
      exact ⟨hxlt, hpn⟩
    · by_cases h2 : e = g.nextEdge + 1
      · subst h2
        rw [hends2]
        exact ⟨hcn, hnlt⟩
      · have helt : e < g.nextEdge := by
          have : (splitEdge g adjT pn cn).nextEdge = g.nextEdge + 2 := rfl
          rw [this] at he
          omega
        rw [hendslt e helt]
        exact hg.endsBound e helt
  · -- nodesBound
    intro x hx
    exact hg.nodesBound x hx
  · -- freshAdj
    intro m hm
    have hm0 : g.nextNode ≤ m := hm
    have hm1 : m ≠ nodeOfHalf g adjT := by omega
    have hm2 : m ≠ twinNodeOfHalf g adjT := by omega
    have hm3 : m ≠ pn := by omega
    have hm4 : m ≠ cn := by omega
    rw [splitEdge_adj_other g adjT pn cn m hm1 hm2 hm3 hm4]
    exact hg.freshAdj m hm

end ClusterSP

namespace ClusterSP

theorem node_ne_of_ends_ne (g : Graph) (a : Half)
    (h : (g.ends a.eid).1 ≠ (g.ends a.eid).2) :
    nodeOfHalf g a ≠ twinNodeOfHalf g a := by
  cases hs : a.side <;> simp [nodeOfHalf, twinNodeOfHalf, hs, h, Ne.symm h]

theorem newNode_gwf (g : Graph) (hg : GWF g) : GWF (newNode g).2 := by
  constructor
  · intro m a ha
    by_cases hm : m = g.nextNode
    · rw [hm] at ha
      simp [newNode, upd] at ha
    · simp only [newNode, upd] at ha ⊢
      rw [if_neg hm] at ha
      exact hg.adjLoc m a ha
  · intro m a ha
    by_cases hm : m = g.nextNode
    · rw [hm] at ha
      simp [newNode, upd] at ha
    · simp only [newNode, upd] at ha ⊢
      rw [if_neg hm] at ha
      exact hg.adjEdgeBound m a ha
  · intro e he
    have := hg.endsBound e he
    simp only [newNode]
    omega
  · intro x hx
    simp only [newNode] at hx ⊢
    rcases List.mem_append.mp hx with hold | hnew
    · exact lt_of_lt_of_le (hg.nodesBound x hold) (by omega)
    · simp at hnew
      omega
  · intro m hm
    simp only [newNode] at hm ⊢
    have h1 : m ≠ g.nextNode := by omega
    rw [upd_other _ _ _ _ h1]
    exact hg.freshAdj m (by omega)

theorem reverseAdjEdges_gwf (g : Graph) (n : Nat) (hg : GWF g) :
    GWF (reverseAdjEdges g n) := by
  have hadj : ∀ m a, a ∈ (reverseAdjEdges g n).adj m → a ∈ g.adj m := by
    intro m a ha
    by_cases hm : m = n
    · rw [hm] at ha ⊢
      simp only [reverseAdjEdges, upd_same] at ha
      exact List.mem_reverse.mp ha
    · simpa [reverseAdjEdges, upd_other _ _ _ _ hm] using ha
  constructor
  · intro m a ha
    exact hg.adjLoc m a (hadj m a ha)
  · intro m a ha
    exact hg.adjEdgeBound m a (hadj m a ha)
  · exact hg.endsBound
  · exact hg.nodesBound
  · intro m hm
    have hempty := hg.freshAdj m hm
    by_cases hmn : m = n
    · rw [hmn] at hempty ⊢
      simp [reverseAdjEdges, upd_same, hempty]
    · simp [reverseAdjEdges, upd_other _ _ _ _ hmn, hempty]

theorem splitAll_gwf (hs : List Half) (g : Graph) (pn cn : Nat) (hg : GWF g)
    (hpn : pn < g.nextNode) (hcn : cn < g.nextNode) (hpc : pn ≠ cn)
    (hok : ∀ a ∈ hs, EdgeOK g pn cn a)
    (hdist : ∀ a ∈ hs, (g.ends a.eid).1 ≠ (g.ends a.eid).2) :
    GWF (splitAll g hs pn cn) := by
  induction hs generalizing g with
  | nil => exact hg
  | cons a tl ih =>
    obtain ⟨heid, h1p, h1c, h2p, h2c⟩ := hok a (List.mem_cons_self a tl)
    obtain ⟨hxp, hnp⟩ := ne_of_ends_ne g (twinHalf a) pn h1p h2p
    obtain ⟨hxc, hnc⟩ := ne_of_ends_ne g (twinHalf a) cn h1c h2c
    have hda := hdist a (List.mem_cons_self a tl)
    have hxn : nodeOfHalf g (twinHalf a) ≠ twinNodeOfHalf g (twinHalf a) :=
      node_ne_of_ends_ne g (twinHalf a) hda
    have hstep : splitAll g (a :: tl) pn cn
        = splitAll (splitEdge g (twinHalf a) pn cn) tl pn cn := rfl
    rw [hstep]
    have hg1 : GWF (splitEdge g (twinHalf a) pn cn) :=
      splitEdge_gwf g (twinHalf a) pn cn hg heid (Ne.symm hxp) (Ne.symm hxc)
        (Ne.symm hnp) (Ne.symm hnc) hxn hpn hcn hpc
    have hg1ends : ∀ e, e < g.nextEdge →
        (splitEdge g (twinHalf a) pn cn).ends e = g.ends e := fun e he =>
      splitEdge_ends_lt g (twinHalf a) pn cn e he
    refine ih (splitEdge g (twinHalf a) pn cn) hg1 hpn hcn ?_ ?_
    · intro b hb
      obtain ⟨hbe, hb1p, hb1c, hb2p, hb2c⟩ := hok b (List.mem_cons_of_mem a hb)
      have hstable := hg1ends b.eid hbe
      refine ⟨?_, ?_, ?_, ?_, ?_⟩
      · rw [splitEdge_nextEdge]
        omega
      all_goals rw [hstable]
      · exact hb1p
      · exact hb1c
      · exact hb2p
      · exact hb2c
    · intro b hb
      obtain ⟨hbe, _, _, _, _⟩ := hok b (List.mem_cons_of_mem a hb)
      rw [hg1ends b.eid hbe]
      exact hdist b (List.mem_cons_of_mem a hb)

end ClusterSP

namespace ClusterSP

theorem ends_cases (g : Graph) (a : Half) :
    ((g.ends a.eid).1 = nodeOfHalf g a ∧ (g.ends a.eid).2 = twinNodeOfHalf g a)
    ∨ ((g.ends a.eid).1 = twinNodeOfHalf g a ∧ (g.ends a.eid).2 = nodeOfHalf g a) := by
  cases hs : a.side <;> simp [nodeOfHalf, twinNodeOfHalf, hs]

theorem range_map_append_t (E d k : Nat) :
    (List.range d).map (fun i => (⟨E + 2 * i, true⟩ : Half))
      ++ (List.range k).map (fun i => (⟨E + 2 * d + 2 * i, true⟩ : Half))
      = (List.range (d + k)).map (fun i => (⟨E + 2 * i, true⟩ : Half)) := by
  rw [List.range_add, List.map_append, List.map_map]
  congr 1
  apply List.map_congr_left
  intro i _
  simp [Function.comp]
  omega

theorem range_map_append_f (E d k : Nat) :
    (List.range d).map (fun i => (⟨E + 2 * i + 1, false⟩ : Half))
      ++ (List.range k).map (fun i => (⟨E + 2 * d + 2 * i + 1, false⟩ : Half))
      = (List.range (d + k)).map (fun i => (⟨E + 2 * i + 1, false⟩ : Half)) := by
  rw [List.range_add, List.map_append, List.map_map]
  congr 1
  apply List.map_congr_left
  intro i _
  simp [Function.comp]
  omega

/-- Invariant of the constructor's per-cluster rerouting loop: folding
`processNode` over the (remaining) nodes of cluster `c` keeps `pn`'s and
`cn`'s adjacency lists equal to the lists of fresh entries appended so far
(one matched pair per split, in call order, the running count `d` many),
keeps the graph well-formed, and touches neither the node set nor
pre-existing edge endpoints. -/
theorem processFold_inv (al2 : List (Nat × Nat)) (c pn cn : Nat) (gb : Graph)
    (hpc : pn ≠ cn) (hpnlt : pn < gb.nextNode) (hcnlt : cn < gb.nextNode) :
    ∀ (rem : List Nat) (g : Graph) (d : Nat),
      rem.Nodup →
      (∀ m ∈ rem, clusterOf al2 m = some c ∧ m ≠ pn ∧ m ≠ cn) →
      (∀ m ∈ rem, ∀ a ∈ gb.adj m, EdgeOK gb pn cn a ∧ nodeOfHalf gb a = m) →
      GWF g →
      g.adj pn = (List.range d).map (fun i => (⟨gb.nextEdge + 2 * i, true⟩ : Half)) →
      g.adj cn = (List.range d).map (fun i => (⟨gb.nextEdge + 2 * i + 1, false⟩ : Half)) →
      g.nextEdge = gb.nextEdge + 2 * d →
      g.nextNode = gb.nextNode →
      g.nodes = gb.nodes →
      (∀ e, e < gb.nextEdge → g.ends e = gb.ends e) →
      (∀ m ∈ rem, g.adj m = gb.adj m) →
      GWF (rem.foldl (processNode al2 c pn cn) (g, d)).1
      ∧ (rem.foldl (processNode al2 c pn cn) (g, d)).1.adj pn
          = (List.range (rem.foldl (processNode al2 c pn cn) (g, d)).2).map
              (fun i => (⟨gb.nextEdge + 2 * i, true⟩ : Half))
      ∧ (rem.foldl (processNode al2 c pn cn) (g, d)).1.adj cn
          = (List.range (rem.foldl (processNode al2 c pn cn) (g, d)).2).map
              (fun i => (⟨gb.nextEdge + 2 * i + 1, false⟩ : Half))
      ∧ (rem.foldl (processNode al2 c pn cn) (g, d)).1.nextEdge
          = gb.nextEdge + 2 * (rem.foldl (processNode al2 c pn cn) (g, d)).2
      ∧ (rem.foldl (processNode al2 c pn cn) (g, d)).1.nextNode = gb.nextNode
      ∧ (rem.foldl (processNode al2 c pn cn) (g, d)).1.nodes = gb.nodes := by
  intro rem
  induction rem with
  | nil =>
    intro g d _ _ _ hg hpnadj hcnadj hne hnn hns _ _
    exact ⟨hg, hpnadj, hcnadj, hne, hnn, hns⟩
  | cons m rem ih =>
    intro g d hnd hremc hremadj hg hpnadj hcnadj hne hnn hns hends hremeq
    have hmc := hremc m (List.mem_cons_self m rem)
    have hmadj := hremadj m (List.mem_cons_self m rem)
    have hmeq : g.adj m = gb.adj m := hremeq m (List.mem_cons_self m rem)
    -- the crossing entries of m in the current graph
    have hsub : ∀ a ∈ crossingOf g al2 c m, a ∈ g.adj m := by
      intro a ha
      exact List.mem_of_mem_filter ha
    have hstable : ∀ a ∈ g.adj m, g.ends a.eid = gb.ends a.eid := by
      intro a ha
      rw [hmeq] at ha
      exact hends a.eid (hmadj a ha).1.1
    have hnode : ∀ a ∈ g.adj m, nodeOfHalf g a = m := by
      intro a ha
      unfold nodeOfHalf
      rw [hstable a ha]
      have := (hmadj a (hmeq ▸ ha)).2
      unfold nodeOfHalf at this
      exact this
    have htwin : ∀ a ∈ g.adj m, twinNodeOfHalf g a = twinNodeOfHalf gb a := by
      intro a ha
      unfold twinNodeOfHalf
      rw [hstable a ha]
    have hok : ∀ a ∈ crossingOf g al2 c m, EdgeOK g pn cn a := by
      intro a ha
      have hmem := hsub a ha
      obtain ⟨⟨hbe, hb1p, hb1c, hb2p, hb2c⟩, _⟩ := hmadj a (hmeq ▸ hmem)
      refine ⟨by omega, ?_, ?_, ?_, ?_⟩ <;> rw [hstable a hmem] <;> assumption
    have hcross_twin : ∀ a ∈ crossingOf g al2 c m,
        clusterOf al2 (twinNodeOfHalf g a) ≠ some c := by
      intro a ha
      have := (List.mem_filter.mp ha).2
      simpa using this
    have hdist : ∀ a ∈ crossingOf g al2 c m, (g.ends a.eid).1 ≠ (g.ends a.eid).2 := by
      intro a ha
      have hmem := hsub a ha
      apply ends_ne_of_node_ne
      rw [hnode a hmem]
      intro hcon
      exact hcross_twin a ha (hcon ▸ hmc.1)
    obtain ⟨hsp_pn, hsp_cn, hsp_ne, hsp_nn, hsp_nodes, hsp_ends, hsp_other⟩ :=
      splitAll_spec (crossingOf g al2 c m) g pn cn hok hpc
    have hgwf1 : GWF (splitAll g (crossingOf g al2 c m) pn cn) :=
      splitAll_gwf (crossingOf g al2 c m) g pn cn hg (by omega) (by omega) hpc hok hdist
    have hfold : (m :: rem).foldl (processNode al2 c pn cn) (g, d)
        = rem.foldl (processNode al2 c pn cn)
            (splitAll g (crossingOf g al2 c m) pn cn,
              d + (crossingOf g al2 c m).length) := rfl
    rw [hfold]
    apply ih
    · exact hnd.of_cons
    · intro m2 hm2
      exact hremc m2 (List.mem_cons_of_mem m hm2)
    · intro m2 hm2
      exact hremadj m2 (List.mem_cons_of_mem m hm2)
    · exact hgwf1
    · rw [hsp_pn, hpnadj]
      simp only [hne]
      exact range_map_append_t gb.nextEdge d (crossingOf g al2 c m).length
    · rw [hsp_cn, hcnadj]
      simp only [hne]
      exact range_map_append_f gb.nextEdge d (crossingOf g al2 c m).length
    · rw [hsp_ne, hne]
      omega
    · rw [hsp_nn, hnn]
    · rw [hsp_nodes, hns]
    · intro e he
      rw [hsp_ends e (by omega), hends e he]
    · intro m2 hm2
      have hm2c := hremc m2 (List.mem_cons_of_mem m hm2)
      rw [hsp_other m2 hm2c.2.1 hm2c.2.2 ?_, hremeq m2 (List.mem_cons_of_mem m hm2)]
      intro a ha
      have hmem := hsub a ha
      have hm2m : m2 ≠ m := by
        intro hcon
        rw [List.nodup_cons] at hnd
        exact hnd.1 (hcon ▸ hm2)
      have hm2tw : m2 ≠ twinNodeOfHalf g a := by
        intro hcon
        exact hcross_twin a ha (hcon ▸ hm2c.1)
      rcases ends_cases g a with ⟨he1, he2⟩ | ⟨he1, he2⟩ <;> rw [he1, he2] <;>
        constructor
      · rw [hnode a hmem]
        exact hm2m
      · exact hm2tw
      · exact hm2tw
      · rw [hnode a hmem]
        exact hm2m

end ClusterSP

namespace ClusterSP

/-- Well-formedness of a SyncPlan state: unique assignment entries whose
node ids exist, over a well-formed graph. -/
def WFS (st : SPState) : Prop :=
  KeysNodup st.assignList
  ∧ (∀ p ∈ st.assignList, p.1 < st.G.nextNode)
  ∧ GWF st.G

theorem reverseAdjEdges_adj_self (g : Graph) (n : Nat) :
    (reverseAdjEdges g n).adj n = (g.adj n).reverse := by
  simp [reverseAdjEdges, upd]

theorem reverseAdjEdges_adj_other (g : Graph) (n m : Nat) (h : m ≠ n) :
    (reverseAdjEdges g n).adj m = g.adj m := by
  simp [reverseAdjEdges, upd, h]

theorem reverseAdjEdges_nextNode (g : Graph) (n : Nat) :
    (reverseAdjEdges g n).nextNode = g.nextNode := rfl

/-- Full specification of one main-loop iteration of the SyncPlan
constructor from any well-formed state: the pipe `(cn, pn)` over the two
fresh gray nodes is registered, `cn` is assigned to `c` and `pn` to the
parent `pc`, and the two gray adjacency lists hold exactly the matched fresh
entry pairs appended by the splits in traversal order — `pn`'s in reverse
order (because of the final `reverseAdjEdges`), both of the same length.
Well-formedness is preserved. -/
theorem stepCluster_spec (st : SPState) (c pc : Nat) (hwf : WFS st) (hcp : pc ≠ c) :
    (stepCluster st c pc).pipes
        = st.pipes ++ [⟨st.G.nextNode, st.G.nextNode + 1⟩]
    ∧ st.G.nextNode ∉ st.G.nodes
    ∧ st.G.nextNode + 1 ∉ st.G.nodes
    ∧ clusterOf (stepCluster st c pc).assignList st.G.nextNode = some c
    ∧ clusterOf (stepCluster st c pc).assignList (st.G.nextNode + 1) = some pc
    ∧ (∃ d : Nat,
        (stepCluster st c pc).G.adj st.G.nextNode
          = (List.range d).map (fun i => (⟨st.G.nextEdge + 2 * i + 1, false⟩ : Half))
        ∧ (stepCluster st c pc).G.adj (st.G.nextNode + 1)
          = ((List.range d).map (fun i => (⟨st.G.nextEdge + 2 * i, true⟩ : Half))).reverse)
    ∧ ((stepCluster st c pc).G.adj st.G.nextNode).length
        = ((stepCluster st c pc).G.adj (st.G.nextNode + 1)).length
    ∧ (stepCluster st c pc).G.nextNode = st.G.nextNode + 2
    ∧ WFS (stepCluster st c pc) := by
  obtain ⟨hknd, hkb, hg⟩ := hwf
  -- abbreviations mirroring the source
  have hpc2 : st.G.nextNode + 1 ≠ st.G.nextNode := by omega
  have hal2 : (stepCluster st c pc).assignList
      = reassignNode (reassignNode st.assignList st.G.nextNode c)
          (st.G.nextNode + 1) pc := rfl
  have hknd2 : KeysNodup (stepCluster st c pc).assignList := by
    rw [hal2]
    exact keysNodup_reassign _ _ _ (keysNodup_reassign _ _ _ hknd)
  -- the graph right after the two newNode calls
  have hg0 : GWF (newNode (newNode st.G).2).2 :=
    newNode_gwf _ (newNode_gwf _ hg)
  have hg0nn : (newNode (newNode st.G).2).2.nextNode = st.G.nextNode + 2 := rfl
  have hg0ne : (newNode (newNode st.G).2).2.nextEdge = st.G.nextEdge := rfl
  have hg0ends : (newNode (newNode st.G).2).2.ends = st.G.ends := rfl
  have hg0adjcn : (newNode (newNode st.G).2).2.adj st.G.nextNode = [] := by
    simp [newNode, upd, hpc2]
  have hg0adjpn : (newNode (newNode st.G).2).2.adj (st.G.nextNode + 1) = [] := by
    simp [newNode, upd]
  have hg0adjo : ∀ m, m ≠ st.G.nextNode → m ≠ st.G.nextNode + 1 →
      (newNode (newNode st.G).2).2.adj m = st.G.adj m := by
    intro m h1 h2
    simp [newNode, upd, h1, h2]
  -- the nodes iterated by the rerouting loop
  have hnsmem : ∀ m ∈ (nodesOf (stepCluster st c pc).assignList c).filter
      (fun n => n != st.G.nextNode),
      clusterOf (stepCluster st c pc).assignList m = some c
        ∧ m ≠ st.G.nextNode + 1 ∧ m ≠ st.G.nextNode ∧ m < st.G.nextNode := by
    intro m hm
    have hmcn : m ≠ st.G.nextNode := by
      have := (List.mem_filter.mp hm).2
      simpa using this
    have hmall := mem_of_mem_nodesOf _ _ _ (List.mem_of_mem_filter hm)
    have hmcl : clusterOf (stepCluster st c pc).assignList m = some c :=
      clusterOf_eq_of_mem _ _ _ hknd2 hmall
    have hmlt : m < st.G.nextNode := by
      rw [hal2] at hmall
      rcases List.mem_append.mp hmall with hf | hl
      · have hf2 := List.mem_of_mem_filter hf
        rcases List.mem_append.mp hf2 with hf3 | hl3
        · exact hkb _ (List.mem_of_mem_filter hf3)
        · simp at hl3
          exact absurd hl3 hmcn
      · simp at hl
        exact absurd hl.2.symm hcp
    exact ⟨hmcl, by omega, hmcn, hmlt⟩
  have hremadj : ∀ m ∈ (nodesOf (stepCluster st c pc).assignList c).filter
      (fun n => n != st.G.nextNode),
      ∀ a ∈ (newNode (newNode st.G).2).2.adj m,
        EdgeOK (newNode (newNode st.G).2).2 (st.G.nextNode + 1) st.G.nextNode a
          ∧ nodeOfHalf (newNode (newNode st.G).2).2 a = m := by
    intro m hm a ha
    obtain ⟨_, hmp, hmc, hmlt⟩ := hnsmem m hm
    rw [hg0adjo m hmc hmp] at ha
    have heid := hg.adjEdgeBound m a ha
    have hends := hg.endsBound a.eid heid
    refine ⟨⟨?_, ?_, ?_, ?_, ?_⟩, ?_⟩
    · rw [hg0ne]
      exact heid
    · rw [hg0ends]
      omega
    · rw [hg0ends]
      omega
    · rw [hg0ends]
      omega
    · rw [hg0ends]
      omega
    · unfold nodeOfHalf
      rw [hg0ends]
      have := hg.adjLoc m a ha
      unfold nodeOfHalf at this
      exact this
  have hnsnd : ((nodesOf (stepCluster st c pc).assignList c).filter
      (fun n => n != st.G.nextNode)).Nodup :=
    (nodesOf_nodup _ c hknd2).filter _
  obtain ⟨hiwf, hipn, hicn, hine, hinn, hinodes⟩ :=
    processFold_inv (stepCluster st c pc).assignList c (st.G.nextNode + 1)
      st.G.nextNode (newNode (newNode st.G).2).2 hpc2
      (by rw [hg0nn]; omega) (by rw [hg0nn]; omega)
      ((nodesOf (stepCluster st c pc).assignList c).filter
        (fun n => n != st.G.nextNode))
      (newNode (newNode st.G).2).2 0 hnsnd
      (fun m hm => ⟨(hnsmem m hm).1, (hnsmem m hm).2.1, (hnsmem m hm).2.2.1⟩)
      hremadj hg0 (by rw [hg0adjpn]; simp) (by rw [hg0adjcn]; simp)
      (by omega) rfl rfl (fun e _ => rfl) (fun m _ => rfl)
  have hGdef : (stepCluster st c pc).G
      = (if (((nodesOf (stepCluster st c pc).assignList c).filter
            (fun n => n != st.G.nextNode)).foldl
            (processNode (stepCluster st c pc).assignList c (st.G.nextNode + 1)
              st.G.nextNode)
            ((newNode (newNode st.G).2).2, 0)).2 = 0
        then (((nodesOf (stepCluster st c pc).assignList c).filter
            (fun n => n != st.G.nextNode)).foldl
            (processNode (stepCluster st c pc).assignList c (st.G.nextNode + 1)
              st.G.nextNode)
            ((newNode (newNode st.G).2).2, 0)).1
        else reverseAdjEdges
          ((((nodesOf (stepCluster st c pc).assignList c).filter
            (fun n => n != st.G.nextNode)).foldl
            (processNode (stepCluster st c pc).assignList c (st.G.nextNode + 1)
              st.G.nextNode)
            ((newNode (newNode st.G).2).2, 0)).1) (st.G.nextNode + 1)) := rfl
  have hadjcnG : (stepCluster st c pc).G.adj st.G.nextNode
      = (List.range (((nodesOf (stepCluster st c pc).assignList c).filter
          (fun n => n != st.G.nextNode)).foldl
          (processNode (stepCluster st c pc).assignList c (st.G.nextNode + 1)
            st.G.nextNode)
          ((newNode (newNode st.G).2).2, 0)).2).map
          (fun i => (⟨st.G.nextEdge + 2 * i + 1, false⟩ : Half)) := by
    rw [hGdef]
    split
    · rw [hicn, hg0ne]
    · rw [reverseAdjEdges_adj_other _ _ _ (Ne.symm hpc2), hicn, hg0ne]
  have hadjpnG : (stepCluster st c pc).G.adj (st.G.nextNode + 1)
      = ((List.range (((nodesOf (stepCluster st c pc).assignList c).filter
          (fun n => n != st.G.nextNode)).foldl
          (processNode (stepCluster st c pc).assignList c (st.G.nextNode + 1)
            st.G.nextNode)
          ((newNode (newNode st.G).2).2, 0)).2).map
          (fun i => (⟨st.G.nextEdge + 2 * i, true⟩ : Half))).reverse := by
    rw [hGdef]
    split
    · rename_i hzero
      rw [hipn, hg0ne, hzero]
      simp
    · rw [reverseAdjEdges_adj_self, hipn, hg0ne]
  have hnnG : (stepCluster st c pc).G.nextNode = st.G.nextNode + 2 := by
    rw [hGdef]
    split
    · rw [hinn, hg0nn]
    · rw [reverseAdjEdges_nextNode, hinn, hg0nn]
  refine ⟨rfl, ?_, ?_, ?_, ?_, ?_, ?_, hnnG, ?_⟩
  · intro hmem
    have := hg.nodesBound _ hmem
    omega
  · intro hmem
    have := hg.nodesBound _ hmem
    omega
  · rw [hal2, clusterOf_reassign_other _ _ _ _ (Ne.symm hpc2)]
    exact clusterOf_reassign_self _ _ _
  · rw [hal2]
    exact clusterOf_reassign_self _ _ _
  · exact ⟨_, hadjcnG, hadjpnG⟩
  · rw [hadjcnG, hadjpnG]
    simp
  · refine ⟨hknd2, ?_, ?_⟩
    · intro p hp
      rw [hnnG]
      rw [hal2] at hp
      rcases List.mem_append.mp hp with hf | hl
      · have hf2 := List.mem_of_mem_filter hf
        rcases List.mem_append.mp hf2 with hf3 | hl3
        · have := hkb _ (List.mem_of_mem_filter hf3)
          omega
        · simp at hl3
          subst hl3
          show st.G.nextNode < st.G.nextNode + 2
          omega
      · simp at hl
        subst hl
        show st.G.nextNode + 1 < st.G.nextNode + 2
        omega
    · rw [hGdef]
      split
      · exact hiwf
      · exact reverseAdjEdges_gwf _ _ hiwf

end ClusterSP

namespace ClusterSP

/-- The state accumulated by the constructor's main loop after processing a
prefix of the non-root post-order cluster sequence. -/
def mainFoldAcc (t : CTree) (g : Graph) (al : List (Nat × Nat))
    (pref : List (Nat × Nat)) : SPState × List FrozenCluster :=
  pref.foldl
    (fun acc cp =>
      (stepCluster acc.1 cp.1 cp.2, setParentNode acc.2 cp.1 acc.1.G.nextNode))
    ((⟨g, al, []⟩ : SPState), freezeClusters t al)

theorem foldMain_wfs (l : List (Nat × Nat)) :
    ∀ acc : SPState × List FrozenCluster, WFS acc.1 →
      (∀ cp ∈ l, cp.2 ≠ cp.1) →
      WFS (l.foldl
        (fun acc cp =>
          (stepCluster acc.1 cp.1 cp.2, setParentNode acc.2 cp.1 acc.1.G.nextNode))
        acc).1 := by
  induction l with
  | nil => intro acc hacc _; exact hacc
  | cons cp l ih =>
    intro acc hacc hcp
    rw [List.foldl_cons]
    refine ih _ ?_ (fun q hq => hcp q (List.mem_cons_of_mem cp hq))
    exact (stepCluster_spec acc.1 cp.1 cp.2 hacc
      (hcp cp (List.mem_cons_self cp l))).2.2.2.2.2.2.2.2

theorem mainFoldAcc_wfs (t : CTree) (g : Graph) (al : List (Nat × Nat))
    (pref : List (Nat × Nat)) (hwf0 : WFS ⟨g, al, []⟩)
    (hcp : ∀ cp ∈ pref, cp.2 ≠ cp.1) :
    WFS (mainFoldAcc t g al pref).1 :=
  foldMain_wfs pref ((⟨g, al, []⟩ : SPState), freezeClusters t al) hwf0 hcp

end ClusterSP

/-- Claim C2: the SyncPlan constructor visits the non-root clusters in
post-order (children strictly before their parents, the root excluded and
coming last in the full post-order sequence); for every non-root cluster `c`
with parent `pc` it creates exactly two fresh gray nodes `cn` and
`pn` (the next two unallocated ids), assigns `cn` to `c` and `pn` to `pc`,
and registers `(cn, pn)` as a pipe via `matchings.matchNodes`; at the moment
of registration `deg(cn) = deg(pn)` holds, each perimeter-crossing edge
having contributed exactly one incident entry to each. -/
theorem claim_C2_constructor_postorder_pipes (t : ClusterSP.CTree) (g : ClusterSP.Graph)
    (al : List (Nat × Nat)) (hwf0 : ClusterSP.WFS ⟨g, al, []⟩)
    (hcp : ∀ cp ∈ ClusterSP.nonRootClusters t, cp.2 ≠ cp.1) :
    ClusterSP.postOrder t
        = (ClusterSP.nonRootClusters t).map Prod.fst ++ [ClusterSP.rootIndex t]
    ∧ (∀ p c, ClusterSP.ChildIn t p c → ClusterSP.before (ClusterSP.postOrder t) c p)
    ∧ (∀ pref cp suff, ClusterSP.nonRootClusters t = pref ++ cp :: suff →
        (ClusterSP.stepCluster (ClusterSP.mainFoldAcc t g al pref).1 cp.1 cp.2).pipes
            = (ClusterSP.mainFoldAcc t g al pref).1.pipes
              ++ [⟨(ClusterSP.mainFoldAcc t g al pref).1.G.nextNode,
                  (ClusterSP.mainFoldAcc t g al pref).1.G.nextNode + 1⟩]
        ∧ (ClusterSP.mainFoldAcc t g al pref).1.G.nextNode
            ∉ (ClusterSP.mainFoldAcc t g al pref).1.G.nodes
        ∧ (ClusterSP.mainFoldAcc t g al pref).1.G.nextNode + 1
            ∉ (ClusterSP.mainFoldAcc t g al pref).1.G.nodes
        ∧ ClusterSP.clusterOf
              (ClusterSP.stepCluster (ClusterSP.mainFoldAcc t g al pref).1 cp.1
                cp.2).assignList
              (ClusterSP.mainFoldAcc t g al pref).1.G.nextNode = some cp.1
        ∧ ClusterSP.clusterOf
              (ClusterSP.stepCluster (ClusterSP.mainFoldAcc t g al pref).1 cp.1
                cp.2).assignList
              ((ClusterSP.mainFoldAcc t g al pref).1.G.nextNode + 1) = some cp.2
        ∧ ((ClusterSP.stepCluster (ClusterSP.mainFoldAcc t g al pref).1 cp.1 cp.2).G.adj
              (ClusterSP.mainFoldAcc t g al pref).1.G.nextNode).length
            = ((ClusterSP.stepCluster (ClusterSP.mainFoldAcc t g al pref).1 cp.1 cp.2).G.adj
              ((ClusterSP.mainFoldAcc t g al pref).1.G.nextNode + 1)).length
        ∧ (ClusterSP.stepCluster (ClusterSP.mainFoldAcc t g al pref).1 cp.1 cp.2).G.nextNode
            = (ClusterSP.mainFoldAcc t g al pref).1.G.nextNode + 2) := by
  refine ⟨?_, ?_, ?_⟩
  · cases t with
    | node r cs => rfl
  · intro p c h
    exact ClusterSP.childIn_before_postOrder t p c h
  · intro pref cp suff hsplit
    have hprefsub : ∀ q ∈ pref, q ∈ ClusterSP.nonRootClusters t := by
      intro q hq
      rw [hsplit]
      exact List.mem_append_left _ hq
    have hcpmem : cp ∈ ClusterSP.nonRootClusters t := by
      rw [hsplit]
      exact List.mem_append_right _ (List.mem_cons_self cp suff)
    have hwfpref : ClusterSP.WFS (ClusterSP.mainFoldAcc t g al pref).1 :=
      ClusterSP.mainFoldAcc_wfs t g al pref hwf0 (fun q hq => hcp q (hprefsub q hq))
    obtain ⟨h1, h2, h3, h4, h5, _, h7, h8, _⟩ :=
      ClusterSP.stepCluster_spec (ClusterSP.mainFoldAcc t g al pref).1 cp.1 cp.2
        hwfpref (hcp cp hcpmem)
    exact ⟨h1, h2, h3, h4, h5, h7, h8⟩

namespace ClusterSP

/-- A concrete graph for witnesses: nodes 10 and 20 joined by edge 0. -/
def exGraph2 : Graph where
  nextNode := 21
  nodes := [10, 20]
  nextEdge := 1
  ends := fun _ => (10, 20)
  adj := fun n => if n = 10 then [⟨0, false⟩] else if n = 20 then [⟨0, true⟩] else []

/-- Node 10 in the child cluster 1, node 20 in the root cluster 0, so edge 0
crosses the boundary of cluster 1. -/
def exAssign2 : List (Nat × Nat) :=
  [(10, 1), (20, 0)]

theorem exWFS2 : WFS ⟨exGraph2, exAssign2, []⟩ := by
  refine ⟨by unfold KeysNodup exAssign2; decide, by decide, ?_, ?_, ?_, ?_, ?_⟩
  · intro n a ha
    simp only [exGraph2] at ha
    split_ifs at ha with h10 h20
    · simp at ha
      subst ha
      subst h10
      rfl
    · simp at ha
      subst ha
      subst h20
      rfl
    · cases ha
  · intro n a ha
    simp only [exGraph2] at ha
    split_ifs at ha with h10 h20
    · simp at ha
      subst ha
      decide
    · simp at ha
      subst ha
      decide
    · cases ha
  · intro e _
    constructor <;> simp [exGraph2]
  · intro x hx
    simp only [exGraph2, List.mem_cons] at hx
    rcases hx with rfl | hx
    · decide
    · rcases hx with rfl | hx
      · decide
      · cases hx
  · intro m hm
    simp only [exGraph2] at hm ⊢
    rw [if_neg (by omega), if_neg (by omega)]

end ClusterSP

/-- Witness for C2 on the concrete two-cluster instance: processing cluster
1 (parent 0) from the initial state registers the pipe `(21, 22)` over the
two fresh gray nodes, and their degrees agree at registration. -/
theorem claim_C2_witness :
    (ClusterSP.stepCluster
        (ClusterSP.mainFoldAcc ClusterSP.exTree ClusterSP.exGraph2
          ClusterSP.exAssign2 []).1 1 0).pipes
      = [⟨21, 22⟩]
    ∧ ((ClusterSP.stepCluster
        (ClusterSP.mainFoldAcc ClusterSP.exTree ClusterSP.exGraph2
          ClusterSP.exAssign2 []).1 1 0).G.adj 21).length
      = ((ClusterSP.stepCluster
        (ClusterSP.mainFoldAcc ClusterSP.exTree ClusterSP.exGraph2
          ClusterSP.exAssign2 []).1 1 0).G.adj 22).length := by
  have h := (claim_C2_constructor_postorder_pipes ClusterSP.exTree ClusterSP.exGraph2
    ClusterSP.exAssign2 ClusterSP.exWFS2 (by decide)).2.2 [] (1, 0) [] rfl
  exact ⟨by simpa using h.1, h.2.2.2.2.2.1⟩

namespace ClusterSP

/-- Modelled from the spec: `PMatching::getIncidentEdgeBijection` (whose
body is not among the sources) produces the cyclic-order-respecting pairing
of one pipe endpoint's adjacency entries with the other's — the k-th entry
of `cn` is matched with the k-th entry of `pn`'s reversed cyclic order
(cyclic order up to reflection). -/
def incidentEdgeBijection (g : Graph) (cn pn : Nat) : List (Half × Half) :=
  (g.adj cn).zip ((g.adj pn).reverse)

/-- The graph produced by one constructor iteration, with the intermediate
state of the rerouting loop exposed: `gmid` is the graph right after the
splits (before the conditional `reverseAdjEdges`), `d` the number of
perimeter-crossing edges. -/
theorem stepCluster_bij (st : SPState) (c pc : Nat) (hwf : WFS st) (hcp : pc ≠ c) :
    ∃ (d : Nat) (gmid : Graph),
      gmid.adj st.G.nextNode
        = (List.range d).map (fun i => (⟨st.G.nextEdge + 2 * i + 1, false⟩ : Half))
      ∧ gmid.adj (st.G.nextNode + 1)
        = (List.range d).map (fun i => (⟨st.G.nextEdge + 2 * i, true⟩ : Half))
      ∧ (stepCluster st c pc).G
          = (if d = 0 then gmid else reverseAdjEdges gmid (st.G.nextNode + 1))
      ∧ (stepCluster st c pc).G.adj st.G.nextNode
        = (List.range d).map (fun i => (⟨st.G.nextEdge + 2 * i + 1, false⟩ : Half))
      ∧ (stepCluster st c pc).G.adj (st.G.nextNode + 1)
        = ((List.range d).map (fun i => (⟨st.G.nextEdge + 2 * i, true⟩ : Half))).reverse := by
  obtain ⟨hknd, hkb, hg⟩ := hwf
  have hpc2 : st.G.nextNode + 1 ≠ st.G.nextNode := by omega
  have hknd2 : KeysNodup (stepCluster st c pc).assignList :=
    keysNodup_reassign _ _ _ (keysNodup_reassign _ _ _ hknd)
  have hg0 : GWF (newNode (newNode st.G).2).2 :=
    newNode_gwf _ (newNode_gwf _ hg)
  have hg0nn : (newNode (newNode st.G).2).2.nextNode = st.G.nextNode + 2 := rfl
  have hg0ne : (newNode (newNode st.G).2).2.nextEdge = st.G.nextEdge := rfl
  have hg0ends : (newNode (newNode st.G).2).2.ends = st.G.ends := rfl
  have hg0adjcn : (newNode (newNode st.G).2).2.adj st.G.nextNode = [] := by
    simp [newNode, upd, hpc2]
  have hg0adjpn : (newNode (newNode st.G).2).2.adj (st.G.nextNode + 1) = [] := by
    simp [newNode, upd]
  have hg0adjo : ∀ m, m ≠ st.G.nextNode → m ≠ st.G.nextNode + 1 →
      (newNode (newNode st.G).2).2.adj m = st.G.adj m := by
    intro m h1 h2
    simp [newNode, upd, h1, h2]
  have hnsmem : ∀ m ∈ (nodesOf (stepCluster st c pc).assignList c).filter
      (fun n => n != st.G.nextNode),
      clusterOf (stepCluster st c pc).assignList m = some c
        ∧ m ≠ st.G.nextNode + 1 ∧ m ≠ st.G.nextNode ∧ m < st.G.nextNode := by
    intro m hm
    have hmcn : m ≠ st.G.nextNode := by
      have := (List.mem_filter.mp hm).2
      simpa using this
    have hmall := mem_of_mem_nodesOf _ _ _ (List.mem_of_mem_filter hm)
    have hmcl : clusterOf (stepCluster st c pc).assignList m = some c :=
      clusterOf_eq_of_mem _ _ _ hknd2 hmall
    have hmlt : m < st.G.nextNode := by
      rcases List.mem_append.mp hmall with hf | hl
      · have hf2 := List.mem_of_mem_filter hf
        rcases List.mem_append.mp hf2 with hf3 | hl3
        · exact hkb _ (List.mem_of_mem_filter hf3)
        · simp at hl3
          exact absurd hl3 hmcn
      · simp at hl
        exact absurd hl.2.symm hcp
    exact ⟨hmcl, by omega, hmcn, hmlt⟩
  have hremadj : ∀ m ∈ (nodesOf (stepCluster st c pc).assignList c).filter
      (fun n => n != st.G.nextNode),
      ∀ a ∈ (newNode (newNode st.G).2).2.adj m,
        EdgeOK (newNode (newNode st.G).2).2 (st.G.nextNode + 1) st.G.nextNode a
          ∧ nodeOfHalf (newNode (newNode st.G).2).2 a = m := by
    intro m hm a ha
    obtain ⟨_, hmp, hmc, hmlt⟩ := hnsmem m hm
    rw [hg0adjo m hmc hmp] at ha
    have heid := hg.adjEdgeBound m a ha
    have hends := hg.endsBound a.eid heid
    refine ⟨⟨?_, ?_, ?_, ?_, ?_⟩, ?_⟩
    · rw [hg0ne]
      exact heid
    · rw [hg0ends]
      omega
    · rw [hg0ends]
      omega
    · rw [hg0ends]
      omega
    · rw [hg0ends]
      omega
    · unfold nodeOfHalf
      rw [hg0ends]
      have := hg.adjLoc m a ha
      unfold nodeOfHalf at this
      exact this
  have hnsnd : ((nodesOf (stepCluster st c pc).assignList c).filter
      (fun n => n != st.G.nextNode)).Nodup :=
    (nodesOf_nodup _ c hknd2).filter _
  obtain ⟨hiwf, hipn, hicn, hine, hinn, hinodes⟩ :=
    processFold_inv (stepCluster st c pc).assignList c (st.G.nextNode + 1)
      st.G.nextNode (newNode (newNode st.G).2).2 hpc2
      (by rw [hg0nn]; omega) (by rw [hg0nn]; omega)
      ((nodesOf (stepCluster st c pc).assignList c).filter
        (fun n => n != st.G.nextNode))
      (newNode (newNode st.G).2).2 0 hnsnd
      (fun m hm => ⟨(hnsmem m hm).1, (hnsmem m hm).2.1, (hnsmem m hm).2.2.1⟩)
      hremadj hg0 (by rw [hg0adjpn]; simp) (by rw [hg0adjcn]; simp)
      (by omega) rfl rfl (fun e _ => rfl) (fun m _ => rfl)
  refine ⟨(((nodesOf (stepCluster st c pc).assignList c).filter
      (fun n => n != st.G.nextNode)).foldl
      (processNode (stepCluster st c pc).assignList c (st.G.nextNode + 1)
        st.G.nextNode)
      ((newNode (newNode st.G).2).2, 0)).2,
    (((nodesOf (stepCluster st c pc).assignList c).filter
      (fun n => n != st.G.nextNode)).foldl
      (processNode (stepCluster st c pc).assignList c (st.G.nextNode + 1)
        st.G.nextNode)
      ((newNode (newNode st.G).2).2, 0)).1,
    ?_, ?_, rfl, ?_, ?_⟩
  · rw [hicn, hg0ne]
  · rw [hipn, hg0ne]
  · have hGdef : (stepCluster st c pc).G
        = (if (((nodesOf (stepCluster st c pc).assignList c).filter
              (fun n => n != st.G.nextNode)).foldl
              (processNode (stepCluster st c pc).assignList c (st.G.nextNode + 1)
                st.G.nextNode)
              ((newNode (newNode st.G).2).2, 0)).2 = 0
          then (((nodesOf (stepCluster st c pc).assignList c).filter
              (fun n => n != st.G.nextNode)).foldl
              (processNode (stepCluster st c pc).assignList c (st.G.nextNode + 1)
                st.G.nextNode)
              ((newNode (newNode st.G).2).2, 0)).1
          else reverseAdjEdges
            ((((nodesOf (stepCluster st c pc).assignList c).filter
              (fun n => n != st.G.nextNode)).foldl
              (processNode (stepCluster st c pc).assignList c (st.G.nextNode + 1)
                st.G.nextNode)
              ((newNode (newNode st.G).2).2, 0)).1) (st.G.nextNode + 1)) := rfl
    rw [hGdef]
    split
    · rw [hicn, hg0ne]
    · rw [reverseAdjEdges_adj_other _ _ _ (Ne.symm hpc2), hicn, hg0ne]
  · have hGdef : (stepCluster st c pc).G
        = (if (((nodesOf (stepCluster st c pc).assignList c).filter
              (fun n => n != st.G.nextNode)).foldl
              (processNode (stepCluster st c pc).assignList c (st.G.nextNode + 1)
                st.G.nextNode)
              ((newNode (newNode st.G).2).2, 0)).2 = 0
          then (((nodesOf (stepCluster st c pc).assignList c).filter
              (fun n => n != st.G.nextNode)).foldl
              (processNode (stepCluster st c pc).assignList c (st.G.nextNode + 1)
                st.G.nextNode)
              ((newNode (newNode st.G).2).2, 0)).1
          else reverseAdjEdges
            ((((nodesOf (stepCluster st c pc).assignList c).filter
              (fun n => n != st.G.nextNode)).foldl
              (processNode (stepCluster st c pc).assignList c (st.G.nextNode + 1)
                st.G.nextNode)
              ((newNode (newNode st.G).2).2, 0)).1) (st.G.nextNode + 1)) := rfl
    rw [hGdef]
    split
    · rename_i hzero
      rw [hipn, hg0ne, hzero]
      simp
    · rw [reverseAdjEdges_adj_self, hipn, hg0ne]

end ClusterSP

/-- Claim C6: for every pipe `(cn, pn)` registered during SyncPlan
construction the incident-edge bijection is a perfect matching between
`cn`'s and `pn`'s adjacency entries preserving cyclic order up to
reflection: the `splitEdge` calls append the matched entry pairs to `cn` and
`pn` in the same traversal order (the intermediate graph `gmid` below), the
subsequent `reverseAdjEdges(pn)` — performed exactly when at least one
perimeter-crossing edge exists, i.e. when the count `d` is nonzero — makes
`pn`'s cyclic order the reverse of `cn`'s matched order, and
`deg(cn) = deg(pn) = d`. -/
theorem claim_C6_pipe_bijection (t : ClusterSP.CTree) (g : ClusterSP.Graph)
    (al : List (Nat × Nat)) (hwf0 : ClusterSP.WFS ⟨g, al, []⟩)
    (hcp : ∀ cp ∈ ClusterSP.nonRootClusters t, cp.2 ≠ cp.1) :
    ∀ pref cp suff, ClusterSP.nonRootClusters t = pref ++ cp :: suff →
    ∃ (d : Nat) (gmid : ClusterSP.Graph),
      gmid.adj (ClusterSP.mainFoldAcc t g al pref).1.G.nextNode
        = (List.range d).map (fun i =>
            (⟨(ClusterSP.mainFoldAcc t g al pref).1.G.nextEdge + 2 * i + 1, false⟩ :
              ClusterSP.Half))
      ∧ gmid.adj ((ClusterSP.mainFoldAcc t g al pref).1.G.nextNode + 1)
        = (List.range d).map (fun i =>
            (⟨(ClusterSP.mainFoldAcc t g al pref).1.G.nextEdge + 2 * i, true⟩ :
              ClusterSP.Half))
      ∧ (ClusterSP.stepCluster (ClusterSP.mainFoldAcc t g al pref).1 cp.1 cp.2).G
          = (if d = 0 then gmid
            else ClusterSP.reverseAdjEdges gmid
              ((ClusterSP.mainFoldAcc t g al pref).1.G.nextNode + 1))
      ∧ (ClusterSP.stepCluster (ClusterSP.mainFoldAcc t g al pref).1 cp.1 cp.2).G.adj
          (ClusterSP.mainFoldAcc t g al pref).1.G.nextNode
        = (List.range d).map (fun i =>
            (⟨(ClusterSP.mainFoldAcc t g al pref).1.G.nextEdge + 2 * i + 1, false⟩ :
              ClusterSP.Half))
      ∧ (ClusterSP.stepCluster (ClusterSP.mainFoldAcc t g al pref).1 cp.1 cp.2).G.adj
          ((ClusterSP.mainFoldAcc t g al pref).1.G.nextNode + 1)
        = ((List.range d).map (fun i =>
            (⟨(ClusterSP.mainFoldAcc t g al pref).1.G.nextEdge + 2 * i, true⟩ :
              ClusterSP.Half))).reverse
      ∧ ClusterSP.incidentEdgeBijection
          (ClusterSP.stepCluster (ClusterSP.mainFoldAcc t g al pref).1 cp.1 cp.2).G
          (ClusterSP.mainFoldAcc t g al pref).1.G.nextNode
          ((ClusterSP.mainFoldAcc t g al pref).1.G.nextNode + 1)
        = (List.range d).map (fun i =>
            ((⟨(ClusterSP.mainFoldAcc t g al pref).1.G.nextEdge + 2 * i + 1, false⟩ :
              ClusterSP.Half),
              (⟨(ClusterSP.mainFoldAcc t g al pref).1.G.nextEdge + 2 * i, true⟩ :
              ClusterSP.Half)))
      ∧ ((ClusterSP.stepCluster (ClusterSP.mainFoldAcc t g al pref).1 cp.1 cp.2).G.adj
          (ClusterSP.mainFoldAcc t g al pref).1.G.nextNode).length
        = ((ClusterSP.stepCluster (ClusterSP.mainFoldAcc t g al pref).1 cp.1 cp.2).G.adj
          ((ClusterSP.mainFoldAcc t g al pref).1.G.nextNode + 1)).length := by
  intro pref cp suff hsplit
  have hprefsub : ∀ q ∈ pref, q ∈ ClusterSP.nonRootClusters t := by
    intro q hq
    rw [hsplit]
    exact List.mem_append_left _ hq
  have hcpmem : cp ∈ ClusterSP.nonRootClusters t := by
    rw [hsplit]
    exact List.mem_append_right _ (List.mem_cons_self cp suff)
  have hwfpref : ClusterSP.WFS (ClusterSP.mainFoldAcc t g al pref).1 :=
    ClusterSP.mainFoldAcc_wfs t g al pref hwf0 (fun q hq => hcp q (hprefsub q hq))
  obtain ⟨d, gmid, h1, h2, h3, h4, h5⟩ :=
    ClusterSP.stepCluster_bij (ClusterSP.mainFoldAcc t g al pref).1 cp.1 cp.2
      hwfpref (hcp cp hcpmem)
  refine ⟨d, gmid, h1, h2, h3, h4, h5, ?_, ?_⟩
  · unfold ClusterSP.incidentEdgeBijection
    rw [h4, h5, List.reverse_reverse, List.zip_map']
  · rw [h4, h5]
    simp

/-- Witness for C6 on the concrete two-cluster instance: one crossing edge,
so the pipe over gray nodes 21 and 22 has the one-pair bijection. -/
theorem claim_C6_witness :
    ∃ (d : Nat) (gmid : ClusterSP.Graph),
      gmid.adj 21 = (List.range d).map (fun i => (⟨1 + 2 * i + 1, false⟩ : ClusterSP.Half))
      ∧ gmid.adj 22 = (List.range d).map (fun i => (⟨1 + 2 * i, true⟩ : ClusterSP.Half))
      ∧ (ClusterSP.stepCluster
            (ClusterSP.mainFoldAcc ClusterSP.exTree ClusterSP.exGraph2
              ClusterSP.exAssign2 []).1 1 0).G
          = (if d = 0 then gmid else ClusterSP.reverseAdjEdges gmid 22)
      ∧ (ClusterSP.stepCluster
            (ClusterSP.mainFoldAcc ClusterSP.exTree ClusterSP.exGraph2
              ClusterSP.exAssign2 []).1 1 0).G.adj 21
          = (List.range d).map (fun i => (⟨1 + 2 * i + 1, false⟩ : ClusterSP.Half))
      ∧ (ClusterSP.stepCluster
            (ClusterSP.mainFoldAcc ClusterSP.exTree ClusterSP.exGraph2
              ClusterSP.exAssign2 []).1 1 0).G.adj 22
          = ((List.range d).map (fun i => (⟨1 + 2 * i, true⟩ : ClusterSP.Half))).reverse
      ∧ ClusterSP.incidentEdgeBijection
            (ClusterSP.stepCluster
              (ClusterSP.mainFoldAcc ClusterSP.exTree ClusterSP.exGraph2
                ClusterSP.exAssign2 []).1 1 0).G 21 22
          = (List.range d).map (fun i =>
              ((⟨1 + 2 * i + 1, false⟩ : ClusterSP.Half),
                (⟨1 + 2 * i, true⟩ : ClusterSP.Half)))
      ∧ ((ClusterSP.stepCluster
            (ClusterSP.mainFoldAcc ClusterSP.exTree ClusterSP.exGraph2
              ClusterSP.exAssign2 []).1 1 0).G.adj 21).length
        = ((ClusterSP.stepCluster
            (ClusterSP.mainFoldAcc ClusterSP.exTree ClusterSP.exGraph2
              ClusterSP.exAssign2 []).1 1 0).G.adj 22).length :=
  claim_C6_pipe_bijection ClusterSP.exTree ClusterSP.exGraph2 ClusterSP.exAssign2
    ClusterSP.exWFS2 (by decide) [] (1, 0) [] rfl

namespace ClusterSP

/-- Embeds `PMatching::getTwin`: the pipe partner of a gray node. -/
def getTwin (ps : List Pipe) (n : Nat) : Option Nat :=
  match ps.find? (fun p => p.cn == n || p.pn == n) with
  | none => none
  | some p => if p.cn = n then some p.pn else some p.cn

/-- Embeds `PMatching::removeMatching`: deregister the pipe `(n, t)`. -/
def removeMatching (ps : List Pipe) (n t : Nat) : List Pipe :=
  ps.filter (fun p => !((p.cn == n && p.pn == t) || (p.cn == t && p.pn == n)))

/-- Modelled from the spec: one step of `join` (GraphUtils, body not among
the sources) merging one matched entry pair of the two gray nodes into a
direct edge between the outside endpoints. -/
def joinPair (g : Graph) (pr : Half × Half) : Graph :=
  let x := twinNodeOfHalf g pr.1
  let y := twinNodeOfHalf g pr.2
  let a1 := upd g.adj x (replaceHalf (g.adj x) (twinHalf pr.1) ⟨g.nextEdge, false⟩)
  { g with
    nextEdge := g.nextEdge + 1
    ends := upd g.ends g.nextEdge (x, y)
    adj := upd a1 y (replaceHalf (a1 y) (twinHalf pr.2) ⟨g.nextEdge, true⟩) }

/-- Modelled from the spec: `join(*G, t, n, bij)` merges the incident-edge
bijection of the gray pair into direct edges and removes the two gray
nodes. -/
def join (g : Graph) (t n : Nat) (bij : List (Half × Half)) : Graph :=
  let g1 := bij.foldl joinPair g
  { g1 with
    nodes := g1.nodes.filter (fun m => m != t && m != n)
    adj := upd (upd g1.adj t []) n [] }

/-- The state `UndoInitCluster::undo` operates on: the SyncPlan state plus
the per-cluster boundary adjacency lists (`c->adjEntries`). -/
structure UndoState where
  sp : SPState
  clusterAdj : Nat → List Half

/-- Embeds `UndoInitCluster::processCluster` (without the augmentation
branch, `augmentation == nullptr`): look up the cluster's gray node `n`
(recorded as `parent_node`) and its pipe twin `t`, take their incident-edge
bijection, deregister the pipe, join the pair, and rebuild the cluster's
boundary list from the bijection (`pair.first->twin()` for each pair). -/
def processCluster (u : UndoState) (c parentNode : Nat) : UndoState :=
  match getTwin u.sp.pipes parentNode with
  | none => u
  | some t =>
    { sp :=
        { G := join u.sp.G t parentNode (incidentEdgeBijection u.sp.G t parentNode)
          assignList := u.sp.assignList
          pipes := removeMatching u.sp.pipes parentNode t }
      clusterAdj := upd u.clusterAdj c
        (u.clusterAdj c
          ++ (incidentEdgeBijection u.sp.G t parentNode).map (fun pr => twinHalf pr.1)) }

/-- Embeds one iteration of the loop in `UndoInitCluster::undo`: the root's
frozen record only reassigns its nodes; every other record first runs
`processCluster` and then reassigns its frozen nodes to the restored
cluster. -/
def undoStep (root : Nat) (u : UndoState) (fc : FrozenCluster) : UndoState :=
  let u1 :=
    if fc.index = root then u
    else
      match fc.parent_node with
      | none => u
      | some pnode => processCluster u fc.index pnode
  { u1 with
    sp :=
      { u1.sp with
        assignList :=
          fc.nodes.foldl (fun al2 m => reassignNode al2 m fc.index) u1.sp.assignList } }

/-- Embeds `UndoInitCluster::undo` (augmentation disabled): clear the root
cluster's boundary list, then walk the frozen records (root first, then the
non-root clusters in reverse post-order), restoring each cluster. -/
def undoInitCluster (root : Nat) (frozen : List FrozenCluster) (u : UndoState) :
    UndoState :=
  frozen.foldl (undoStep root)
    { u with clusterAdj := upd u.clusterAdj root [] }

/-- The pipes created by `k` constructor iterations starting at fresh id
`N`. -/
def pipeRange (N : Nat) : Nat → List Pipe
  | 0 => []
  | k + 1 => pipeRange N k ++ [⟨N + 2 * k, N + 2 * k + 1⟩]

/-- The gray node ids created by `k` constructor iterations, in creation
order. -/
def nodeRange (N : Nat) : Nat → List Nat
  | 0 => []
  | k + 1 => nodeRange N k ++ [N + 2 * k, N + 2 * k + 1]

end ClusterSP

namespace ClusterSP

theorem pipeRange_cons (N k : Nat) :
    (⟨N, N + 1⟩ : Pipe) :: pipeRange (N + 2) k = pipeRange N (k + 1) := by
  induction k with
  | zero => rfl
  | succ k ih =>
    show (⟨N, N + 1⟩ : Pipe) :: (pipeRange (N + 2) k ++ [⟨N + 2 + 2 * k, N + 2 + 2 * k + 1⟩])
        = pipeRange N (k + 1) ++ [⟨N + 2 * (k + 1), N + 2 * (k + 1) + 1⟩]
    rw [← List.cons_append, ih]
    have h1 : N + 2 + 2 * k = N + 2 * (k + 1) := by omega
    rw [h1]

theorem nodeRange_cons (N k : Nat) :
    N :: (N + 1) :: nodeRange (N + 2) k = nodeRange N (k + 1) := by
  induction k with
  | zero => rfl
  | succ k ih =>
    show N :: (N + 1) :: (nodeRange (N + 2) k ++ [N + 2 + 2 * k, N + 2 + 2 * k + 1])
        = nodeRange N (k + 1) ++ [N + 2 * (k + 1), N + 2 * (k + 1) + 1]
    rw [← List.cons_append, ← List.cons_append, ih]
    have h1 : N + 2 + 2 * k = N + 2 * (k + 1) := by omega
    rw [h1]

theorem mem_pipeRange (N k : Nat) (p : Pipe) (h : p ∈ pipeRange N k) :
    ∃ j, j < k ∧ p.cn = N + 2 * j ∧ p.pn = N + 2 * j + 1 := by
  induction k with
  | zero => cases h
  | succ k ih =>
    rcases List.mem_append.mp h with hin | hlast
    · obtain ⟨j, hj, h1, h2⟩ := ih hin
      exact ⟨j, by omega, h1, h2⟩
    · simp at hlast
      exact ⟨k, by omega, by rw [hlast], by rw [hlast]⟩

theorem mem_nodeRange (N k : Nat) (x : Nat) (h : x ∈ nodeRange N k) :
    N ≤ x ∧ x < N + 2 * k := by
  induction k with
  | zero => cases h
  | succ k ih =>
    rcases List.mem_append.mp h with hin | hlast
    · have := ih hin
      omega
    · simp at hlast
      rcases hlast with rfl | rfl <;> omega

theorem splitAll_nodes_nn (g : Graph) (hs : List Half) (pn cn : Nat) :
    (splitAll g hs pn cn).nodes = g.nodes
    ∧ (splitAll g hs pn cn).nextNode = g.nextNode := by
  induction hs generalizing g with
  | nil => exact ⟨rfl, rfl⟩
  | cons a tl ih => exact ih (splitEdge g (twinHalf a) pn cn)

theorem processFold_nodes_nn (al2 : List (Nat × Nat)) (c pn cn : Nat) (ns : List Nat) :
    ∀ acc : Graph × Nat,
      (ns.foldl (processNode al2 c pn cn) acc).1.nodes = acc.1.nodes
      ∧ (ns.foldl (processNode al2 c pn cn) acc).1.nextNode = acc.1.nextNode := by
  induction ns with
  | nil => intro acc; exact ⟨rfl, rfl⟩
  | cons m ns ih =>
    intro acc
    rw [List.foldl_cons]
    obtain ⟨h1, h2⟩ := ih (processNode al2 c pn cn acc m)
    obtain ⟨h3, h4⟩ := splitAll_nodes_nn acc.1 (crossingOf acc.1 al2 c m) pn cn
    exact ⟨by rw [h1]; exact h3, by rw [h2]; exact h4⟩

theorem stepCluster_G_eq (st : SPState) (c pc : Nat) :
    (stepCluster st c pc).G
      = (if (((nodesOf (stepCluster st c pc).assignList c).filter
            (fun n => n != st.G.nextNode)).foldl
            (processNode (stepCluster st c pc).assignList c (st.G.nextNode + 1)
              st.G.nextNode)
            ((newNode (newNode st.G).2).2, 0)).2 = 0
        then (((nodesOf (stepCluster st c pc).assignList c).filter
            (fun n => n != st.G.nextNode)).foldl
            (processNode (stepCluster st c pc).assignList c (st.G.nextNode + 1)
              st.G.nextNode)
            ((newNode (newNode st.G).2).2, 0)).1
        else reverseAdjEdges
          ((((nodesOf (stepCluster st c pc).assignList c).filter
            (fun n => n != st.G.nextNode)).foldl
            (processNode (stepCluster st c pc).assignList c (st.G.nextNode + 1)
              st.G.nextNode)
            ((newNode (newNode st.G).2).2, 0)).1) (st.G.nextNode + 1)) := rfl

theorem stepCluster_G_nodes (st : SPState) (c pc : Nat) :
    (stepCluster st c pc).G.nodes = st.G.nodes ++ [st.G.nextNode, st.G.nextNode + 1]
    ∧ (stepCluster st c pc).G.nextNode = st.G.nextNode + 2 := by
  have hbase : (newNode (newNode st.G).2).2.nodes
      = st.G.nodes ++ [st.G.nextNode, st.G.nextNode + 1] := by
    show (st.G.nodes ++ [st.G.nextNode]) ++ [st.G.nextNode + 1] = _
    rw [List.append_assoc]
    rfl
  obtain ⟨h1, h2⟩ := processFold_nodes_nn (stepCluster st c pc).assignList c
    (st.G.nextNode + 1) st.G.nextNode
    ((nodesOf (stepCluster st c pc).assignList c).filter (fun n => n != st.G.nextNode))
    ((newNode (newNode st.G).2).2, 0)
  rw [stepCluster_G_eq]
  constructor
  · split
    · rw [h1, hbase]
    · show (reverseAdjEdges _ _).nodes = _
      unfold reverseAdjEdges
      rw [h1, hbase]
  · split
    · rw [h2]
      rfl
    · show (reverseAdjEdges _ _).nextNode = _
      rw [reverseAdjEdges_nextNode, h2]
      rfl

theorem stepCluster_pipes_eq (st : SPState) (c pc : Nat) :
    (stepCluster st c pc).pipes = st.pipes ++ [⟨st.G.nextNode, st.G.nextNode + 1⟩] := rfl

end ClusterSP

namespace ClusterSP

/-- The cumulative effect of the main loop's
`(*fc_it).parent_node = cn->index()` writes: for each traversed cluster, in
order, store the then-current fresh node id. -/
def applyPNs (N : Nat) (l : List (Nat × Nat)) (fr : List FrozenCluster) :
    List FrozenCluster :=
  match l with
  | [] => fr
  | cp :: l2 => applyPNs (N + 2) l2 (setParentNode fr cp.1 N)

/-- The same writes seen from a single frozen record. -/
def applyUpdsN (N : Nat) (l : List (Nat × Nat)) (fc : FrozenCluster) :
    FrozenCluster :=
  match l with
  | [] => fc
  | cp :: l2 => applyUpdsN (N + 2) l2
      (if fc.index = cp.1 then { fc with parent_node := some N } else fc)

/-- Shape of the constructor's main fold from an arbitrary accumulator:
the fresh-node counter advances by two per cluster, the pipes and gray
nodes accumulate in creation order, and the frozen records receive their
`parent_node` writes. -/
theorem foldMain_shape (rem : List (Nat × Nat)) :
    ∀ (acc : SPState × List FrozenCluster),
      (rem.foldl
        (fun acc cp =>
          (stepCluster acc.1 cp.1 cp.2, setParentNode acc.2 cp.1 acc.1.G.nextNode))
        acc).1.G.nextNode = acc.1.G.nextNode + 2 * rem.length
      ∧ (rem.foldl
        (fun acc cp =>
          (stepCluster acc.1 cp.1 cp.2, setParentNode acc.2 cp.1 acc.1.G.nextNode))
        acc).1.pipes = acc.1.pipes ++ pipeRange acc.1.G.nextNode rem.length
      ∧ (rem.foldl
        (fun acc cp =>
          (stepCluster acc.1 cp.1 cp.2, setParentNode acc.2 cp.1 acc.1.G.nextNode))
        acc).1.G.nodes = acc.1.G.nodes ++ nodeRange acc.1.G.nextNode rem.length
      ∧ (rem.foldl
        (fun acc cp =>
          (stepCluster acc.1 cp.1 cp.2, setParentNode acc.2 cp.1 acc.1.G.nextNode))
        acc).2 = applyPNs acc.1.G.nextNode rem acc.2 := by
  induction rem with
  | nil =>
    intro acc
    refine ⟨by simp, by simp [pipeRange], by simp [nodeRange], rfl⟩
  | cons cp rem ih =>
    intro acc
    rw [List.foldl_cons]
    obtain ⟨ih1, ih2, ih3, ih4⟩ :=
      ih (stepCluster acc.1 cp.1 cp.2, setParentNode acc.2 cp.1 acc.1.G.nextNode)
    obtain ⟨hnodes, hnn⟩ := stepCluster_G_nodes acc.1 cp.1 cp.2
    refine ⟨?_, ?_, ?_, ?_⟩
    · rw [ih1]
      show (stepCluster acc.1 cp.1 cp.2).G.nextNode + 2 * rem.length = _
      rw [hnn]
      simp
      omega
    · rw [ih2]
      show (stepCluster acc.1 cp.1 cp.2).pipes ++ _ = _
      rw [stepCluster_pipes_eq, hnn, List.append_assoc, List.length_cons,
        ← pipeRange_cons]
      rfl
    · rw [ih3]
      show (stepCluster acc.1 cp.1 cp.2).G.nodes ++ _ = _
      rw [hnodes, hnn, List.append_assoc, List.length_cons, ← nodeRange_cons]
      rfl
    · rw [ih4]
      show applyPNs (stepCluster acc.1 cp.1 cp.2).G.nextNode rem _ = _
      rw [hnn]
      rfl

theorem applyPNs_map (l : List (Nat × Nat)) :
    ∀ (N : Nat) (fr : List FrozenCluster),
      applyPNs N l fr = fr.map (applyUpdsN N l) := by
  induction l with
  | nil =>
    intro N fr
    simp [applyPNs, applyUpdsN]
  | cons cp l ih =>
    intro N fr
    show applyPNs (N + 2) l (setParentNode fr cp.1 N) = _
    rw [ih (N + 2) (setParentNode fr cp.1 N)]
    unfold setParentNode
    rw [List.map_map]
    rfl

theorem applyUpdsN_fields (l : List (Nat × Nat)) :
    ∀ (N : Nat) (fc : FrozenCluster),
      (applyUpdsN N l fc).index = fc.index
      ∧ (applyUpdsN N l fc).nodes = fc.nodes
      ∧ (applyUpdsN N l fc).parent = fc.parent := by
  induction l with
  | nil => intro N fc; exact ⟨rfl, rfl, rfl⟩
  | cons cp l ih =>
    intro N fc
    obtain ⟨h1, h2, h3⟩ := ih (N + 2)
      (if fc.index = cp.1 then { fc with parent_node := some N } else fc)
    refine ⟨?_, ?_, ?_⟩
    · show (applyUpdsN (N + 2) l _).index = _
      rw [h1]
      split <;> rfl
    · show (applyUpdsN (N + 2) l _).nodes = _
      rw [h2]
      split <;> rfl
    · show (applyUpdsN (N + 2) l _).parent = _
      rw [h3]
      split <;> rfl

theorem applyUpdsN_no_match (l : List (Nat × Nat)) :
    ∀ (N : Nat) (fc : FrozenCluster),
      (∀ cp ∈ l, cp.1 ≠ fc.index) → applyUpdsN N l fc = fc := by
  induction l with
  | nil => intro N fc _; rfl
  | cons cp l ih =>
    intro N fc hne
    show applyUpdsN (N + 2) l _ = fc
    rw [if_neg (fun hh => hne cp (List.mem_cons_self cp l) hh.symm)]
    exact ih (N + 2) fc (fun q hq => hne q (List.mem_cons_of_mem cp hq))

theorem applyUpdsN_append (l1 l2 : List (Nat × Nat)) :
    ∀ (N : Nat) (fc : FrozenCluster),
      applyUpdsN N (l1 ++ l2) fc = applyUpdsN (N + 2 * l1.length) l2 (applyUpdsN N l1 fc) := by
  induction l1 with
  | nil => intro N fc; simp [applyUpdsN]
  | cons cp l1 ih =>
    intro N fc
    show applyUpdsN (N + 2) (l1 ++ l2) _ = _
    rw [ih (N + 2)]
    have : N + 2 + 2 * l1.length = N + 2 * (cp :: l1).length := by
      simp
      omega
    rw [this]
    rfl

end ClusterSP

namespace ClusterSP

/-- Every frozen record stores exactly the node list of its cluster at
freeze time. -/
theorem freezeClusters_nodes (t : CTree) (al : List (Nat × Nat)) :
    ∀ fc ∈ freezeClusters t al, fc.nodes = nodesOf al fc.index := by
  intro fc hfc
  unfold freezeClusters at hfc
  rw [List.mem_reverse, List.mem_map] at hfc
  obtain ⟨x, _, rfl⟩ := hfc
  rfl

theorem postOrderFull_fst (t : CTree) :
    (postOrderFull t).map Prod.fst = postOrder t := by
  cases t with
  | node r cs =>
    unfold postOrderFull postOrder
    rw [List.map_append, List.map_map]
    rfl

/-- Every post-order cluster index has a frozen record. -/
theorem freezeClusters_covers (t : CTree) (al : List (Nat × Nat)) (c0 : Nat)
    (h : c0 ∈ postOrder t) :
    ∃ fc ∈ freezeClusters t al, fc.index = c0 := by
  rw [← postOrderFull_fst] at h
  rw [List.mem_map] at h
  obtain ⟨x, hx, hx1⟩ := h
  refine ⟨⟨x.1, x.2, none, nodesOf al x.1⟩, ?_, hx1⟩
  unfold freezeClusters
  rw [List.mem_reverse, List.mem_map]
  exact ⟨x, hx, rfl⟩

/-- The frozen record list as seen by `undo`: the root record followed by
the non-root records in reverse post-order. -/
theorem freezeClusters_eq (r : Nat) (cs : List CTree) (al : List (Nat × Nat)) :
    freezeClusters (CTree.node r cs) al
      = (⟨r, none, none, nodesOf al r⟩ : FrozenCluster)
        :: ((postOrderList cs r).map
            (fun cp => (⟨cp.1, some cp.2, none, nodesOf al cp.1⟩ : FrozenCluster))).reverse := by
  unfold freezeClusters postOrderFull
  rw [List.map_append, List.map_map, List.reverse_append]
  rfl

/-- Shape of the non-root tail of the frozen list as the undo loop consumes
it: the head record belongs to the last-created pipe (`parent_node` is the
highest gray id), indices never collide with the root. -/
inductive RecsShape (root N : Nat) : Nat → List FrozenCluster → Prop where
  | nil : RecsShape root N 0 []
  | cons : ∀ (k : Nat) (fc : FrozenCluster) (recs : List FrozenCluster),
      fc.index ≠ root → fc.parent_node = some (N + 2 * k) →
      RecsShape root N k recs → RecsShape root N (k + 1) (fc :: recs)

/-- The non-root record for cluster `cp` frozen before the main loop. -/
def recOf (al : List (Nat × Nat)) (cp : Nat × Nat) : FrozenCluster :=
  ⟨cp.1, some cp.2, none, nodesOf al cp.1⟩

theorem applyUpdsN_single (N : Nat) (cp : Nat × Nat) (fc : FrozenCluster) :
    applyUpdsN N [cp] fc
      = (if fc.index = cp.1 then { fc with parent_node := some N } else fc) := rfl

theorem tail_recsShape (root N : Nat) (al : List (Nat × Nat)) (L : List (Nat × Nat))
    (hnd : (L.map Prod.fst).Nodup) (hnr : ∀ cp ∈ L, cp.1 ≠ root) :
    RecsShape root N L.length
      ((L.map (fun cp => applyUpdsN N L (recOf al cp))).reverse) := by
  induction L using List.reverseRecOn with
  | nil => exact RecsShape.nil
  | append_singleton L2 cp ih =>
    have hnd2 : (L2.map Prod.fst).Nodup := by
      rw [List.map_append] at hnd
      exact (List.nodup_append.mp hnd).1
    have hcpnot : cp.1 ∉ L2.map Prod.fst := by
      rw [List.map_append, List.nodup_append] at hnd
      intro hmem
      exact hnd.2.2 hmem (by simp)
    have hmapeq : (L2 ++ [cp]).map (fun q => applyUpdsN N (L2 ++ [cp]) (recOf al q))
        = L2.map (fun q => applyUpdsN N L2 (recOf al q))
          ++ [applyUpdsN N (L2 ++ [cp]) (recOf al cp)] := by
      rw [List.map_append]
      congr 1
      apply List.map_congr_left
      intro q hq
      rw [applyUpdsN_append]
      have hidx : (applyUpdsN N L2 (recOf al q)).index = q.1 :=
        (applyUpdsN_fields L2 N (recOf al q)).1
      rw [applyUpdsN_single, if_neg ?_]
      intro hqcp
      rw [hidx] at hqcp
      have hq2 : q.1 = cp.1 := hqcp
      exact hcpnot (hq2 ▸ List.mem_map_of_mem Prod.fst hq)
    have hhead : applyUpdsN N (L2 ++ [cp]) (recOf al cp)
        = ⟨cp.1, some cp.2, some (N + 2 * L2.length), nodesOf al cp.1⟩ := by
      rw [applyUpdsN_append]
      have hno : applyUpdsN N L2 (recOf al cp) = recOf al cp :=
        applyUpdsN_no_match L2 N (recOf al cp) (by
          intro q hq hqcp
          have hq2 : q.1 = cp.1 := hqcp
          exact hcpnot (hq2 ▸ List.mem_map_of_mem Prod.fst hq))
      rw [hno]
      rw [applyUpdsN_single, if_pos (show (recOf al cp).index = cp.1 from rfl)]
      rfl
    rw [hmapeq, List.reverse_append]
    show RecsShape root N (L2 ++ [cp]).length
      (applyUpdsN N (L2 ++ [cp]) (recOf al cp)
        :: (L2.map (fun q => applyUpdsN N L2 (recOf al q))).reverse)
    rw [hhead]
    have hlen : (L2 ++ [cp]).length = L2.length + 1 := by simp
    rw [hlen]
    exact RecsShape.cons L2.length _ _
      (hnr cp (List.mem_append_right _ (List.mem_cons_self cp [])))
      rfl
      (ih hnd2 (fun q hq => hnr q (List.mem_append_left _ hq)))

end ClusterSP

namespace ClusterSP

theorem getTwin_pipeRange (N k : Nat) :
    getTwin (pipeRange N (k + 1)) (N + 2 * k) = some (N + 2 * k + 1) := by
  have hsplit : pipeRange N (k + 1)
      = pipeRange N k ++ [(⟨N + 2 * k, N + 2 * k + 1⟩ : Pipe)] := rfl
  have hpre : (pipeRange N k).find?
      (fun p => p.cn == N + 2 * k || p.pn == N + 2 * k) = none := by
    apply List.find?_eq_none.mpr
    intro p hp
    obtain ⟨j, hj, h1, h2⟩ := mem_pipeRange N k p hp
    simp [h1, h2]
    omega
  have hfind : (pipeRange N (k + 1)).find?
      (fun p => p.cn == N + 2 * k || p.pn == N + 2 * k)
      = some (⟨N + 2 * k, N + 2 * k + 1⟩ : Pipe) := by
    rw [hsplit, List.find?_append, hpre]
    simp
  unfold getTwin
  rw [hfind]
  simp

theorem removeMatching_pipeRange (N k : Nat) :
    removeMatching (pipeRange N (k + 1)) (N + 2 * k) (N + 2 * k + 1) = pipeRange N k := by
  have hsplit : pipeRange N (k + 1)
      = pipeRange N k ++ [(⟨N + 2 * k, N + 2 * k + 1⟩ : Pipe)] := rfl
  unfold removeMatching
  rw [hsplit, List.filter_append]
  have h1 : (pipeRange N k).filter
      (fun p => !((p.cn == N + 2 * k && p.pn == N + 2 * k + 1)
        || (p.cn == N + 2 * k + 1 && p.pn == N + 2 * k))) = pipeRange N k := by
    apply List.filter_eq_self.mpr
    intro p hp
    obtain ⟨j, hj, hc, hn⟩ := mem_pipeRange N k p hp
    simp [hc, hn]
    omega
  rw [h1]
  simp

theorem joinPair_nodes (g : Graph) (pr : Half × Half) :
    (joinPair g pr).nodes = g.nodes := rfl

theorem join_nodes (g : Graph) (t n : Nat) (bij : List (Half × Half)) :
    (join g t n bij).nodes = g.nodes.filter (fun m => m != t && m != n) := by
  unfold join
  have h : (bij.foldl joinPair g).nodes = g.nodes := by
    induction bij generalizing g with
    | nil => rfl
    | cons pr bij ih => exact ih (joinPair g pr)
  simp only []
  rw [h]

theorem nodes_filter_gray (gnodes : List Nat) (N k : Nat)
    (hb : ∀ x ∈ gnodes, x < N) :
    (gnodes ++ nodeRange N (k + 1)).filter
        (fun m => m != N + 2 * k + 1 && m != N + 2 * k)
      = gnodes ++ nodeRange N k := by
  rw [List.filter_append]
  have h1 : gnodes.filter (fun m => m != N + 2 * k + 1 && m != N + 2 * k) = gnodes := by
    apply List.filter_eq_self.mpr
    intro x hx
    have := hb x hx
    simp
    omega
  have h2 : (nodeRange N (k + 1)).filter
      (fun m => m != N + 2 * k + 1 && m != N + 2 * k) = nodeRange N k := by
    show (nodeRange N k ++ [N + 2 * k, N + 2 * k + 1]).filter _ = _
    rw [List.filter_append]
    have h3 : (nodeRange N k).filter
        (fun m => m != N + 2 * k + 1 && m != N + 2 * k) = nodeRange N k := by
      apply List.filter_eq_self.mpr
      intro x hx
      have := mem_nodeRange N k x hx
      simp
      omega
    rw [h3]
    simp
  rw [h1, h2]

theorem processCluster_assign (u : UndoState) (c pnode : Nat) :
    (processCluster u c pnode).sp.assignList = u.sp.assignList := by
  unfold processCluster
  cases getTwin u.sp.pipes pnode <;> rfl

theorem undoStep_assign (root : Nat) (u : UndoState) (fc : FrozenCluster) :
    (undoStep root u fc).sp.assignList
      = fc.nodes.foldl (fun al2 m => reassignNode al2 m fc.index)
          (if fc.index = root then u.sp.assignList
            else match fc.parent_node with
              | none => u.sp.assignList
              | some pnode => (processCluster u fc.index pnode).sp.assignList) := by
  unfold undoStep
  split
  · rfl
  · cases fc.parent_node <;> rfl

/-- Unwinding the non-root frozen records removes, pipe by pipe in reverse
creation order, the two gray nodes of each pipe from the graph and the pipe
from the matching, leaving exactly the original nodes. -/
theorem undo_graph_aux (root N : Nat) (gnodes : List Nat)
    (hb : ∀ x ∈ gnodes, x < N) :
    ∀ (k : Nat) (recs : List FrozenCluster) (u : UndoState),
      RecsShape root N k recs →
      u.sp.pipes = pipeRange N k →
      u.sp.G.nodes = gnodes ++ nodeRange N k →
      ((recs.foldl (undoStep root) u).sp.G.nodes = gnodes
        ∧ (recs.foldl (undoStep root) u).sp.pipes = []) := by
  intro k recs
  induction recs generalizing k with
  | nil =>
    intro u hshape hp hn
    cases hshape
    rw [List.foldl_nil]
    constructor
    · rw [hn]
      show gnodes ++ [] = gnodes
      simp
    · exact hp
  | cons fc recs ih =>
    intro u hshape hp hn
    cases hshape with
    | cons k2 _ _ hroot hpn hrest =>
      rw [List.foldl_cons]
      have hone : (undoStep root u fc).sp.pipes = pipeRange N k2
          ∧ (undoStep root u fc).sp.G.nodes = gnodes ++ nodeRange N k2 := by
        unfold undoStep
        rw [if_neg hroot, hpn]
        have htwin : getTwin u.sp.pipes (N + 2 * k2) = some (N + 2 * k2 + 1) := by
          rw [hp]
          exact getTwin_pipeRange N k2
        constructor
        · show (processCluster u fc.index (N + 2 * k2)).sp.pipes = _
          unfold processCluster
          rw [htwin]
          show removeMatching u.sp.pipes (N + 2 * k2) (N + 2 * k2 + 1) = _
          rw [hp]
          exact removeMatching_pipeRange N k2
        · show (processCluster u fc.index (N + 2 * k2)).sp.G.nodes = _
          unfold processCluster
          rw [htwin]
          show (join u.sp.G (N + 2 * k2 + 1) (N + 2 * k2) _).nodes = _
          rw [join_nodes, hn]
          exact nodes_filter_gray gnodes N k2 hb
      exact ih k2 (undoStep root u fc) hrest hone.1 hone.2

end ClusterSP

namespace ClusterSP

theorem clusterOf_some_mem (al : List (Nat × Nat)) (n c : Nat)
    (h : clusterOf al n = some c) : (n, c) ∈ al := by
  unfold clusterOf at h
  induction al with
  | nil => simp [List.find?] at h
  | cons a tl ih =>
    by_cases ha : a.1 = n
    · rw [List.find?_cons_of_pos _ (by simp [ha])] at h
      simp at h
      have hac : a = (n, c) := by
        cases a
        simp_all
      exact hac ▸ List.mem_cons_self a tl
    · rw [List.find?_cons_of_neg _ (by simp [ha])] at h
      exact List.mem_cons_of_mem a (ih h)

theorem reassignFold_other (c0 : Nat) (ns : List Nat) :
    ∀ (al2 : List (Nat × Nat)) (n : Nat), n ∉ ns →
      clusterOf (ns.foldl (fun a m => reassignNode a m c0) al2) n = clusterOf al2 n := by
  induction ns with
  | nil => intro al2 n _; rfl
  | cons x ns ih =>
    intro al2 n hn
    rw [List.foldl_cons]
    have hnx : n ≠ x := fun hh => hn (hh ▸ List.mem_cons_self x ns)
    rw [ih _ n (fun hh => hn (List.mem_cons_of_mem x hh))]
    exact clusterOf_reassign_other al2 x c0 n hnx

theorem reassignFold_mem (c0 : Nat) (ns : List Nat) :
    ∀ (al2 : List (Nat × Nat)) (n : Nat), n ∈ ns →
      clusterOf (ns.foldl (fun a m => reassignNode a m c0) al2) n = some c0 := by
  induction ns with
  | nil => intro al2 n h; cases h
  | cons x ns ih =>
    intro al2 n h
    rw [List.foldl_cons]
    by_cases hn : n ∈ ns
    · exact ih _ n hn
    · have hx : n = x := by
        rcases List.mem_cons.mp h with rfl | h2
        · rfl
        · exact absurd h2 hn
      subst hx
      rw [reassignFold_other c0 ns _ n hn]
      exact clusterOf_reassign_self al2 n c0

theorem undoFold_assign (root c0 nid : Nat) (fr : List FrozenCluster) :
    ∀ u : UndoState,
      (∀ fc ∈ fr, nid ∈ fc.nodes → fc.index = c0) →
      ((∃ fc ∈ fr, nid ∈ fc.nodes) ∨ clusterOf u.sp.assignList nid = some c0) →
      clusterOf (fr.foldl (undoStep root) u).sp.assignList nid = some c0 := by
  induction fr with
  | nil =>
    intro u _ hex
    rw [List.foldl_nil]
    rcases hex with ⟨fc, hm, _⟩ | h
    · cases hm
    · exact h
  | cons fc fr ih =>
    intro u hidx hex
    rw [List.foldl_cons]
    apply ih (undoStep root u fc) (fun q hq => hidx q (List.mem_cons_of_mem fc hq))
    by_cases hmem : nid ∈ fc.nodes
    · right
      have hc0 : fc.index = c0 := hidx fc (List.mem_cons_self fc fr) hmem
      rw [undoStep_assign, ← hc0]
      exact reassignFold_mem fc.index fc.nodes _ nid hmem
    · by_cases hex2 : ∃ q ∈ fr, nid ∈ q.nodes
      · exact Or.inl hex2
      · right
        rcases hex with ⟨q, hq, hqn⟩ | hcl
        · rcases List.mem_cons.mp hq with rfl | hq2
          · exact absurd hqn hmem
          · exact absurd ⟨q, hq2, hqn⟩ hex2
        · rw [undoStep_assign, reassignFold_other fc.index fc.nodes _ nid hmem]
          split
          · exact hcl
          · cases hpn : fc.parent_node with
            | none => exact hcl
            | some pnode =>
              show clusterOf (processCluster u fc.index pnode).sp.assignList nid
                = some c0
              rw [processCluster_assign]
              exact hcl

end ClusterSP

namespace ClusterSP

theorem undoStep_root (root : Nat) (u : UndoState) (fc : FrozenCluster)
    (h : fc.index = root) :
    (undoStep root u fc).sp.G = u.sp.G ∧ (undoStep root u fc).sp.pipes = u.sp.pipes := by
  unfold undoStep
  rw [if_pos h]
  exact ⟨rfl, rfl⟩

end ClusterSP

/-- Claim C3: applying the `UndoInitCluster` undo operation to the state
the SyncPlan constructor produced restores the exact original
node-to-cluster assignment — every original node is assigned to the same
cluster index as before construction — and the two gray nodes of every
registered pipe are removed again by `join`: the resulting node set is
exactly the original one, so no pipe endpoint survives. -/
theorem claim_C3_undo_restores_assignment (t : ClusterSP.CTree) (g : ClusterSP.Graph)
    (al : List (Nat × Nat)) (hwf0 : ClusterSP.WFS ⟨g, al, []⟩)
    (hal : ∀ p ∈ al, p.2 ∈ ClusterSP.postOrder t)
    (hndt : (ClusterSP.postOrder t).Nodup) :
    (∀ n c0, ClusterSP.clusterOf al n = some c0 →
      ClusterSP.clusterOf
        (ClusterSP.undoInitCluster (ClusterSP.rootIndex t) (ClusterSP.initSyncPlan t g al).2
          ⟨(ClusterSP.initSyncPlan t g al).1, fun _ => []⟩).sp.assignList n = some c0)
    ∧ (ClusterSP.undoInitCluster (ClusterSP.rootIndex t) (ClusterSP.initSyncPlan t g al).2
        ⟨(ClusterSP.initSyncPlan t g al).1, fun _ => []⟩).sp.G.nodes = g.nodes
    ∧ (∀ p ∈ (ClusterSP.initSyncPlan t g al).1.pipes,
        p.cn ∉ (ClusterSP.undoInitCluster (ClusterSP.rootIndex t)
            (ClusterSP.initSyncPlan t g al).2
            ⟨(ClusterSP.initSyncPlan t g al).1, fun _ => []⟩).sp.G.nodes
        ∧ p.pn ∉ (ClusterSP.undoInitCluster (ClusterSP.rootIndex t)
            (ClusterSP.initSyncPlan t g al).2
            ⟨(ClusterSP.initSyncPlan t g al).1, fun _ => []⟩).sp.G.nodes) := by
  obtain ⟨hknd, hkb, hg⟩ := hwf0
  cases t with
  | node r cs =>
    obtain ⟨hshN, hshP, hshNodes, hshFr⟩ :=
      ClusterSP.foldMain_shape (ClusterSP.nonRootClusters (ClusterSP.CTree.node r cs))
        ((⟨g, al, []⟩ : ClusterSP.SPState),
          ClusterSP.freezeClusters (ClusterSP.CTree.node r cs) al)
    -- projections of the constructor result
    have hpipes : (ClusterSP.initSyncPlan (ClusterSP.CTree.node r cs) g al).1.pipes
        = ClusterSP.pipeRange g.nextNode
            (ClusterSP.nonRootClusters (ClusterSP.CTree.node r cs)).length := by
      show _ = ClusterSP.pipeRange g.nextNode _
      rw [show (ClusterSP.initSyncPlan (ClusterSP.CTree.node r cs) g al).1.pipes
          = ((ClusterSP.nonRootClusters (ClusterSP.CTree.node r cs)).foldl
            (fun acc cp =>
              (ClusterSP.stepCluster acc.1 cp.1 cp.2,
                ClusterSP.setParentNode acc.2 cp.1 acc.1.G.nextNode))
            ((⟨g, al, []⟩ : ClusterSP.SPState),
              ClusterSP.freezeClusters (ClusterSP.CTree.node r cs) al)).1.pipes from rfl,
        hshP]
      simp
    have hnodes : (ClusterSP.initSyncPlan (ClusterSP.CTree.node r cs) g al).1.G.nodes
        = g.nodes ++ ClusterSP.nodeRange g.nextNode
            (ClusterSP.nonRootClusters (ClusterSP.CTree.node r cs)).length := by
      rw [show (ClusterSP.initSyncPlan (ClusterSP.CTree.node r cs) g al).1.G.nodes
          = ((ClusterSP.nonRootClusters (ClusterSP.CTree.node r cs)).foldl
            (fun acc cp =>
              (ClusterSP.stepCluster acc.1 cp.1 cp.2,
                ClusterSP.setParentNode acc.2 cp.1 acc.1.G.nextNode))
            ((⟨g, al, []⟩ : ClusterSP.SPState),
              ClusterSP.freezeClusters (ClusterSP.CTree.node r cs) al)).1.G.nodes from rfl,
        hshNodes]
    have hfrozen : (ClusterSP.initSyncPlan (ClusterSP.CTree.node r cs) g al).2
        = (ClusterSP.freezeClusters (ClusterSP.CTree.node r cs) al).map
            (ClusterSP.applyUpdsN g.nextNode
              (ClusterSP.nonRootClusters (ClusterSP.CTree.node r cs))) := by
      rw [show (ClusterSP.initSyncPlan (ClusterSP.CTree.node r cs) g al).2
          = ((ClusterSP.nonRootClusters (ClusterSP.CTree.node r cs)).foldl
            (fun acc cp =>
              (ClusterSP.stepCluster acc.1 cp.1 cp.2,
                ClusterSP.setParentNode acc.2 cp.1 acc.1.G.nextNode))
            ((⟨g, al, []⟩ : ClusterSP.SPState),
              ClusterSP.freezeClusters (ClusterSP.CTree.node r cs) al)).2 from rfl,
        hshFr, ClusterSP.applyPNs_map]
    -- well-formedness facts of the tree order
    have hndL : ((ClusterSP.nonRootClusters (ClusterSP.CTree.node r cs)).map
        Prod.fst).Nodup := by
      unfold ClusterSP.postOrder at hndt
      exact (List.nodup_append.mp hndt).1
    have hnr : ∀ cp ∈ ClusterSP.nonRootClusters (ClusterSP.CTree.node r cs),
        cp.1 ≠ r := by
      unfold ClusterSP.postOrder at hndt
      intro cp hcp hcon
      exact (List.nodup_append.mp hndt).2.2
        (List.mem_map_of_mem Prod.fst hcp) (by simp [hcon])
    simp only [ClusterSP.rootIndex]
    have hundef : ClusterSP.undoInitCluster r
        (ClusterSP.initSyncPlan (ClusterSP.CTree.node r cs) g al).2
        ⟨(ClusterSP.initSyncPlan (ClusterSP.CTree.node r cs) g al).1, fun _ => []⟩
        = ((ClusterSP.initSyncPlan (ClusterSP.CTree.node r cs) g al).2).foldl
            (ClusterSP.undoStep r)
            ⟨(ClusterSP.initSyncPlan (ClusterSP.CTree.node r cs) g al).1,
              upd (fun _ => []) r []⟩ := rfl
    have htail : (ClusterSP.initSyncPlan (ClusterSP.CTree.node r cs) g al).2
        = ClusterSP.applyUpdsN g.nextNode
            (ClusterSP.nonRootClusters (ClusterSP.CTree.node r cs))
            (⟨r, none, none, ClusterSP.nodesOf al r⟩ : ClusterSP.FrozenCluster)
          :: ((ClusterSP.nonRootClusters (ClusterSP.CTree.node r cs)).map
              (fun cp => ClusterSP.applyUpdsN g.nextNode
                (ClusterSP.nonRootClusters (ClusterSP.CTree.node r cs))
                (ClusterSP.recOf al cp))).reverse := by
      rw [hfrozen, ClusterSP.freezeClusters_eq, List.map_cons, List.map_reverse,
        List.map_map]
      rfl
    have hheadidx : (ClusterSP.applyUpdsN g.nextNode
        (ClusterSP.nonRootClusters (ClusterSP.CTree.node r cs))
        (⟨r, none, none, ClusterSP.nodesOf al r⟩ : ClusterSP.FrozenCluster)).index = r :=
      (ClusterSP.applyUpdsN_fields _ _ _).1
    have hshape := ClusterSP.tail_recsShape r g.nextNode al
      (ClusterSP.nonRootClusters (ClusterSP.CTree.node r cs)) hndL hnr
    have hstart := ClusterSP.undoStep_root r
      ⟨(ClusterSP.initSyncPlan (ClusterSP.CTree.node r cs) g al).1,
        upd (fun _ => []) r []⟩ _ hheadidx
    obtain ⟨hbN, hbP⟩ := ClusterSP.undo_graph_aux r g.nextNode g.nodes
      (fun x hx => hg.nodesBound x hx)
      (ClusterSP.nonRootClusters (ClusterSP.CTree.node r cs)).length
      ((ClusterSP.nonRootClusters (ClusterSP.CTree.node r cs)).map
        (fun cp => ClusterSP.applyUpdsN g.nextNode
          (ClusterSP.nonRootClusters (ClusterSP.CTree.node r cs))
          (ClusterSP.recOf al cp))).reverse
      (ClusterSP.undoStep r
        ⟨(ClusterSP.initSyncPlan (ClusterSP.CTree.node r cs) g al).1,
          upd (fun _ => []) r []⟩
        (ClusterSP.applyUpdsN g.nextNode
          (ClusterSP.nonRootClusters (ClusterSP.CTree.node r cs))
          (⟨r, none, none, ClusterSP.nodesOf al r⟩ : ClusterSP.FrozenCluster)))
      hshape
      (by rw [hstart.2]; exact hpipes)
      (by rw [hstart.1]; exact hnodes)
    have hfinalnodes : (ClusterSP.undoInitCluster r
        (ClusterSP.initSyncPlan (ClusterSP.CTree.node r cs) g al).2
        ⟨(ClusterSP.initSyncPlan (ClusterSP.CTree.node r cs) g al).1,
          fun _ => []⟩).sp.G.nodes = g.nodes := by
      rw [hundef, htail, List.foldl_cons]
      exact hbN
    refine ⟨?_, hfinalnodes, ?_⟩
    · intro n c0 hcl0
      rw [hundef]
      apply ClusterSP.undoFold_assign r c0 n
      · intro fc hfc hnfc
        rw [hfrozen] at hfc
        rw [List.mem_map] at hfc
        obtain ⟨fc0, hfc0, rfl⟩ := hfc
        have hidx0 := (ClusterSP.applyUpdsN_fields
          (ClusterSP.nonRootClusters (ClusterSP.CTree.node r cs)) g.nextNode fc0).1
        have hnodes0 := (ClusterSP.applyUpdsN_fields
          (ClusterSP.nonRootClusters (ClusterSP.CTree.node r cs)) g.nextNode fc0).2.1
        rw [hnodes0, ClusterSP.freezeClusters_nodes _ al fc0 hfc0] at hnfc
        have hmem := ClusterSP.mem_of_mem_nodesOf al fc0.index n hnfc
        have := ClusterSP.clusterOf_eq_of_mem al n fc0.index hknd hmem
        rw [hcl0] at this
        rw [hidx0]
        exact (Option.some.injEq _ _ ▸ this).symm
      · left
        have hmem0 : (n, c0) ∈ al := ClusterSP.clusterOf_some_mem al n c0 hcl0
        have hc0post : c0 ∈ ClusterSP.postOrder (ClusterSP.CTree.node r cs) :=
          hal (n, c0) hmem0
        obtain ⟨fc0, hfc0, hidx0⟩ :=
          ClusterSP.freezeClusters_covers (ClusterSP.CTree.node r cs) al c0 hc0post
        refine ⟨ClusterSP.applyUpdsN g.nextNode
          (ClusterSP.nonRootClusters (ClusterSP.CTree.node r cs)) fc0, ?_, ?_⟩
        · rw [hfrozen]
          exact List.mem_map_of_mem _ hfc0
        · rw [(ClusterSP.applyUpdsN_fields
              (ClusterSP.nonRootClusters (ClusterSP.CTree.node r cs)) g.nextNode fc0).2.1,
            ClusterSP.freezeClusters_nodes _ al fc0 hfc0, hidx0]
          exact ClusterSP.mem_nodesOf_of_mem al c0 n hmem0
    · intro p hp
      rw [hpipes] at hp
      obtain ⟨j, hj, hcn, hpn⟩ := ClusterSP.mem_pipeRange _ _ p hp
      rw [hfinalnodes]
      have hfix1 : p.cn = g.nextNode + 2 * j := hcn
      have hfix2 : p.pn = g.nextNode + 2 * j + 1 := hpn
      constructor
      · intro hmem
        have hlt : p.cn < g.nextNode := hg.nodesBound p.cn hmem
        omega
      · intro hmem
        have hlt : p.pn < g.nextNode := hg.nodesBound p.pn hmem
        omega

/-- Witness for C3 on the concrete two-cluster instance: after constructing
and immediately undoing, node 10 is back in cluster 1 and the node set is
exactly the original one (both gray nodes are gone). -/
theorem claim_C3_witness :
    ClusterSP.clusterOf
        (ClusterSP.undoInitCluster (ClusterSP.rootIndex ClusterSP.exTree)
          (ClusterSP.initSyncPlan ClusterSP.exTree ClusterSP.exGraph2
            ClusterSP.exAssign2).2
          ⟨(ClusterSP.initSyncPlan ClusterSP.exTree ClusterSP.exGraph2
            ClusterSP.exAssign2).1, fun _ => []⟩).sp.assignList 10 = some 1
    ∧ (ClusterSP.undoInitCluster (ClusterSP.rootIndex ClusterSP.exTree)
        (ClusterSP.initSyncPlan ClusterSP.exTree ClusterSP.exGraph2
          ClusterSP.exAssign2).2
        ⟨(ClusterSP.initSyncPlan ClusterSP.exTree ClusterSP.exGraph2
          ClusterSP.exAssign2).1, fun _ => []⟩).sp.G.nodes
      = ClusterSP.exGraph2.nodes :=
  ⟨(claim_C3_undo_restores_assignment ClusterSP.exTree ClusterSP.exGraph2
      ClusterSP.exAssign2 ClusterSP.exWFS2 (by decide) (by decide)).1 10 1 rfl,
    (claim_C3_undo_restores_assignment ClusterSP.exTree ClusterSP.exGraph2
      ClusterSP.exAssign2 ClusterSP.exWFS2 (by decide) (by decide)).2.1⟩
